import Mathlib

/-!
# Verification of the `excel_analyzer` core

Shallow embedding, in Lean 4, of the core of the `airport-platform_test`
repository: the dependency graph (`src/excel_analyzer/dependency.py`), the
reference parser (`src/excel_analyzer/parser.py`) and the financial metric
registry (`src/excel_analyzer/financial_rules.py`), together with proofs of
the specification's testable properties.

Conventions of the embedding:
* Python `dict` values are association lists `List (String × β)`; a Python
  dict always has distinct keys, which the `WF` predicates record.
* Python `set` values are `List String` in some enumeration order; only
  membership-level facts are proved, so the order is irrelevant.
* Python exceptions are modelled with `Except`: `PyErr.valueError`
  corresponds to `ValueError` (the only kind caught by the extraction code)
  and `PyErr.typeError` to `TypeError`.
* The external `openpyxl` library (formula tokenizer, `range_boundaries`,
  `get_column_letter`) is a collaborator of the repository, not part of it;
  its pieces are embedded from the library's behaviour where the
  repository's behaviour depends on them.
-/

namespace ExcelAnalyzer

/-- Python exception kinds that the analysed code can raise or catch. -/
inductive PyErr where
  | valueError
  | typeError
deriving DecidableEq, Repr

/-! ## Data model (`src/excel_analyzer/models.py`) -/

/-- Evaluated cell values as they appear in the value grid:
`none` is Python `None`, `str` a text cell, `num` a numeric cell
(`numbers.Number`), `date` a `datetime.date`/`datetime.datetime` value.
Only the class of the value matters to the analysed code, except for
strings whose text is inspected, so numbers are collapsed to `Int`. -/
inductive PyVal where
  | none
  | str (s : String)
  | num (n : Int)
  | date
deriving DecidableEq, Repr

/-- `CellMetadata` from `models.py` (`value` is kept as a `PyVal`). -/
structure CellMetadata where
  sheet : String
  coordinate : String
  value : PyVal
  formula : Option String
  dependencies : List String
  is_input : Bool
deriving DecidableEq, Repr

/-- `CellMetadata.id`: the workbook-unique identifier `sheet!coordinate`. -/
def CellMetadata.id (c : CellMetadata) : String :=
  c.sheet ++ "!" ++ c.coordinate

/-- `FinancialMetric` from `models.py`; `details` is a string-to-string
dict (the only detail values the shipped rules store are strings). -/
structure FinancialMetric where
  sheet : String
  coordinate : String
  formula : String
  metric : String
  details : List (String × String)
deriving DecidableEq, Repr

/-! ## Association-list model of Python dicts -/

variable {β : Type}

/-- Dict lookup `d.get(k)`: value of the first (unique, for a well-formed
dict) entry with key `k`. -/
def lookupVal (es : List (String × β)) (k : String) :
    Option β :=
  (es.find? (fun p => p.1 = k)).map Prod.snd

/-- `dict` assignment `d[k] = v`: overwrite in place if the key exists, else
append a new entry. -/
def dictInsert (es : List (String × β)) (k : String)
    (v : β) : List (String × β) :=
  if (es.map Prod.fst).contains k then
    es.map (fun p => if p.1 = k then (p.1, v) else p)
  else
    es ++ [(k, v)]

theorem lookupVal_nil (k : String) :
    lookupVal ([] : List (String × β)) k = none := rfl

theorem lookupVal_cons (p : String × β)
    (es : List (String × β)) (k : String) :
    lookupVal (p :: es) k = if p.1 = k then some p.2 else lookupVal es k := by
  by_cases h : p.1 = k
  · simp [lookupVal, List.find?_cons, h]
  · simp [lookupVal, List.find?_cons, h]

/-- The lookup misses exactly when the key is absent. -/
theorem lookupVal_eq_none (es : List (String × β)) (k : String) :
    lookupVal es k = none ↔ k ∉ es.map Prod.fst := by
  induction es with
  | nil => simp [lookupVal_nil]
  | cons p es ih =>
    rw [lookupVal_cons]
    by_cases h : p.1 = k
    · simp [h]
    · simp only [if_neg h, ih, List.map_cons, List.mem_cons]
      constructor
      · intro hk hmem
        rcases hmem with hmem | hmem
        · exact h hmem.symm
        · exact hk hmem
      · intro hk
        exact fun hmem => hk (Or.inr hmem)

/-- In a dict with distinct keys, each entry is recovered by lookup. -/
theorem lookupVal_of_mem {es : List (String × β)}
    (hnd : (es.map Prod.fst).Nodup) {p : String × β} (hp : p ∈ es) :
    lookupVal es p.1 = some p.2 := by
  induction es with
  | nil => cases hp
  | cons q es ih =>
    rw [lookupVal_cons]
    rcases List.mem_cons.mp hp with rfl | hp
    · simp
    · have hq : q.1 ≠ p.1 := by
        intro h
        exact (List.nodup_cons.mp hnd).1 (h ▸ List.mem_map_of_mem Prod.fst hp)
      rw [if_neg hq]
      exact ih (List.nodup_cons.mp hnd).2 hp

/-- A successful lookup comes from an entry of the dict. -/
theorem mem_of_lookupVal {es : List (String × β)} {k : String}
    {v : β} (h : lookupVal es k = some v) : (k, v) ∈ es := by
  induction es with
  | nil => simp [lookupVal_nil] at h
  | cons q es ih =>
    rw [lookupVal_cons] at h
    by_cases hq : q.1 = k
    · rw [if_pos hq] at h
      have hv : q.2 = v := by injection h
      have : (k, v) = q := by rw [← hq, ← hv]
      rw [this]
      exact List.mem_cons_self q es
    · rw [if_neg hq] at h
      exact List.mem_cons_of_mem _ (ih h)

/-- In-place overwrite of the entries with key `k` leaves other lookups
unchanged. -/
theorem lookupVal_mapOverwrite (es : List (String × β))
    (k : String) (v : β) (j : String) (hj : j ≠ k) :
    lookupVal (es.map (fun p => if p.1 = k then (p.1, v) else p)) j
      = lookupVal es j := by
  induction es with
  | nil => rfl
  | cons q es ih =>
    simp only [List.map_cons]
    by_cases hq : q.1 = k
    · rw [if_pos hq, lookupVal_cons, lookupVal_cons]
      have hqj : ¬ (q.1 = j) := by rw [hq]; exact fun h => hj h.symm
      simp only [if_neg hqj, ih]
    · rw [if_neg hq, lookupVal_cons, lookupVal_cons, ih]

/-- In-place overwrite of the entries with key `k` makes the lookup of `k`
return the new value, provided the key is present. -/
theorem lookupVal_mapOverwrite_self (es : List (String × β))
    (k : String) (v : β) (hk : k ∈ es.map Prod.fst) :
    lookupVal (es.map (fun p => if p.1 = k then (p.1, v) else p)) k = some v := by
  induction es with
  | nil => simp at hk
  | cons q es ih =>
    simp only [List.map_cons]
    by_cases hq : q.1 = k
    · rw [if_pos hq, lookupVal_cons]
      simp [hq]
    · rw [if_neg hq, lookupVal_cons, if_neg hq]
      apply ih
      rw [List.map_cons] at hk
      rcases List.mem_cons.mp hk with h | h
      · exact absurd h.symm hq
      · exact h

/-- Lookup in an extended dict: the old entries win, the new entry is used
when the old dict misses. -/
theorem lookupVal_append_single (es : List (String × β))
    (k : String) (v : β) (j : String) :
    lookupVal (es ++ [(k, v)]) j =
      match lookupVal es j with
      | some w => some w
      | none => if k = j then some v else none := by
  induction es with
  | nil =>
    simp only [List.nil_append, lookupVal_nil, lookupVal_cons, lookupVal_nil]
  | cons q es ih =>
    simp only [List.cons_append, lookupVal_cons]
    by_cases hq : q.1 = j
    · simp [hq]
    · rw [if_neg hq, if_neg hq, ih]

/-- Effect of dict assignment on lookups. -/
theorem lookupVal_dictInsert (es : List (String × β))
    (k : String) (v : β) (j : String) :
    lookupVal (dictInsert es k v) j = if j = k then some v else lookupVal es j := by
  unfold dictInsert
  by_cases hk : ((es.map Prod.fst).contains k : Bool)
  · rw [if_pos hk]
    have hkm : k ∈ es.map Prod.fst := by simpa using hk
    by_cases hj : j = k
    · rw [if_pos hj, hj]
      exact lookupVal_mapOverwrite_self es k v hkm
    · rw [if_neg hj]
      exact lookupVal_mapOverwrite es k v j hj
  · rw [if_neg hk]
    have hkm : k ∉ es.map Prod.fst := by simpa using hk
    rw [lookupVal_append_single]
    by_cases hj : j = k
    · subst hj
      rw [(lookupVal_eq_none es j).mpr hkm]
    · have hkj : ¬ (k = j) := fun h => hj h.symm
      rw [if_neg hj]
      cases hlv : lookupVal es j <;> simp [hlv, hkj]

/-- Keys after a dict assignment. -/
theorem mem_keys_dictInsert (es : List (String × β))
    (k : String) (v : β) (j : String) :
    j ∈ (dictInsert es k v).map Prod.fst ↔ j ∈ es.map Prod.fst ∨ j = k := by
  rw [← not_iff_not]
  push_neg
  rw [← lookupVal_eq_none, ← lookupVal_eq_none, lookupVal_dictInsert]
  by_cases hj : j = k
  · simp [hj]
  · simp [hj]

/-- Dict assignment preserves distinctness of keys. -/
theorem nodup_keys_dictInsert {es : List (String × β)}
    (hnd : (es.map Prod.fst).Nodup) (k : String) (v : β) :
    ((dictInsert es k v).map Prod.fst).Nodup := by
  unfold dictInsert
  by_cases hk : ((es.map Prod.fst).contains k : Bool)
  · rw [if_pos hk]
    have : (es.map fun p => if p.1 = k then (p.1, v) else p).map Prod.fst
        = es.map Prod.fst := by
      rw [List.map_map]
      apply List.map_congr_left
      intro p _
      by_cases hp : p.1 = k <;> simp [hp]
    rw [this]
    exact hnd
  · rw [if_neg hk]
    have hkm : k ∉ es.map Prod.fst := by simpa using hk
    simp only [List.map_append, List.map_cons, List.map_nil]
    exact List.Nodup.append hnd (List.nodup_singleton k)
      (by intro a ha hb; simp only [List.mem_singleton] at hb; exact hkm (hb ▸ ha))

/-! ## Dependency graph (`src/excel_analyzer/dependency.py`) -/

/-- `DependencyGraph`: `edges` is the dict mapping a node identifier to the
set of identifiers its formula references. -/
structure DependencyGraph where
  edges : List (String × List String)
deriving DecidableEq, Repr

/-- Python-dict well-formedness: distinct keys, and every stored set has
distinct members. -/
def DependencyGraph.WF (g : DependencyGraph) : Prop :=
  (g.edges.map Prod.fst).Nodup ∧ ∀ p ∈ g.edges, (p.2 : List String).Nodup

instance : DecidablePred DependencyGraph.WF := fun _ => instDecidableAnd

/-- Membership in the key set of the edge dict. -/
def DependencyGraph.isKey (g : DependencyGraph) (k : String) : Prop :=
  k ∈ g.edges.map Prod.fst

instance (g : DependencyGraph) : DecidablePred g.isKey := fun k =>
  inferInstanceAs (Decidable (k ∈ g.edges.map Prod.fst))

/-- Python `set.update`: add the members of `t` to `s`, keeping each element
once (existing members first). -/
def setUpdate (s t : List String) : List String :=
  t.foldl (fun acc x => if x ∈ acc then acc else acc ++ [x]) s

/-- `dict.setdefault(k, default)` followed by an in-place set update of the
entry: if `k` is a key, transform its value with `f`; otherwise append
`(k, f default)`. -/
def dictUpsert (es : List (String × List String)) (k : String)
    (dflt : List String) (f : List String → List String) :
    List (String × List String) :=
  if (es.map Prod.fst).contains k then
    es.map (fun p => if p.1 = k then (p.1, f p.2) else p)
  else
    es ++ [(k, f dflt)]

/-- `DependencyGraph.add_cell`: union the cell's dependencies into the entry
for its id, then ensure each referenced identifier is present as a key. -/
def DependencyGraph.add_cell (g : DependencyGraph) (cell : CellMetadata) :
    DependencyGraph :=
  let es := dictUpsert g.edges cell.id [] (fun s => setUpdate s cell.dependencies)
  ⟨cell.dependencies.foldl
    (fun es d => if (es.map Prod.fst).contains d then es else es ++ [(d, [])]) es⟩

/-- `DependencyGraph.downstream`: `self.edges.get(node, set())`. -/
def DependencyGraph.downstream (g : DependencyGraph) (node : String) :
    List String :=
  (lookupVal g.edges node).getD []

/-- `DependencyGraph.upstream`: all keys whose reference set contains
`target`. -/
def DependencyGraph.upstream (g : DependencyGraph) (target : String) :
    List String :=
  (g.edges.filter (fun p => (p.2 : List String).contains target)).map Prod.fst

/-- The empty graph (`DependencyGraph()`). -/
def DependencyGraph.empty : DependencyGraph := ⟨[]⟩

/-- `SheetMetadata`, restricted to the fields the graph construction reads. -/
structure SheetMetadata where
  name : String
  cells : List CellMetadata
deriving Repr

/-- `WorkbookMetadata`, restricted to the fields the graph construction
reads. -/
structure WorkbookMetadata where
  path : String
  sheets : List SheetMetadata
deriving Repr

/-- `DependencyGraph.from_workbook`: `add_cell` for every cell of every
sheet. -/
def DependencyGraph.from_workbook (wb : WorkbookMetadata) : DependencyGraph :=
  wb.sheets.foldl (fun g sheet => sheet.cells.foldl DependencyGraph.add_cell g)
    DependencyGraph.empty

/-- `DependencyGraph.subgraph`: for each node of the subset, record the
intersection of its reference set with the subset. -/
def DependencyGraph.subgraph (g : DependencyGraph) (nodes : List String) :
    DependencyGraph :=
  ⟨nodes.foldl
    (fun es node =>
      dictInsert es node ((g.downstream node).filter (fun d => nodes.contains d)))
    []⟩

/-- Closure invariant of the spec: every identifier referenced anywhere is
also a key of the graph. -/
def DependencyGraph.Closed (g : DependencyGraph) : Prop :=
  ∀ p ∈ g.edges, ∀ d ∈ (p.2 : List String), g.isKey d

/-! ### Set and setdefault lemmas -/

/-- Membership in a Python set union. -/
theorem setUpdate_mem (s t : List String) (x : String) :
    x ∈ setUpdate s t ↔ x ∈ s ∨ x ∈ t := by
  induction t generalizing s with
  | nil => simp [setUpdate]
  | cons y ys ih =>
    show x ∈ setUpdate (if y ∈ s then s else s ++ [y]) ys ↔ _
    by_cases hy : y ∈ s
    · rw [if_pos hy, ih]
      constructor
      · rintro (h | h)
        · exact Or.inl h
        · exact Or.inr (List.mem_cons_of_mem _ h)
      · rintro (h | h)
        · exact Or.inl h
        · rcases List.mem_cons.mp h with rfl | h
          · exact Or.inl hy
          · exact Or.inr h
    · rw [if_neg hy, ih]
      simp only [List.mem_append, List.mem_singleton, List.mem_cons]
      tauto

/-- Key set after a `setdefault`-and-update step. -/
theorem dictUpsert_keys_mem (es : List (String × List String)) (k : String)
    (dflt : List String) (f : List String → List String) (x : String) :
    x ∈ (dictUpsert es k dflt f).map Prod.fst ↔ x ∈ es.map Prod.fst ∨ x = k := by
  unfold dictUpsert
  by_cases hk : ((es.map Prod.fst).contains k : Bool)
  · rw [if_pos hk]
    have hmem : k ∈ es.map Prod.fst := by simpa using hk
    have hkeys : (es.map fun p => if p.1 = k then (p.1, f p.2) else p).map Prod.fst
        = es.map Prod.fst := by
      rw [List.map_map]
      apply List.map_congr_left
      intro p _
      by_cases hp : p.1 = k <;> simp [hp]
    rw [hkeys]
    constructor
    · exact Or.inl
    · rintro (h | rfl)
      · exact h
      · exact hmem
  · rw [if_neg hk]
    simp only [List.map_append, List.map_cons, List.map_nil, List.mem_append,
      List.mem_singleton]

/-- Each entry after a `setdefault`-and-update step is either an untouched
old entry, or the entry for `k` whose value is `f` of the old value (or of
the default when `k` was absent). -/
theorem dictUpsert_entry_cases (es : List (String × List String)) (k : String)
    (dflt : List String) (f : List String → List String) (p : String × List String)
    (hp : p ∈ dictUpsert es k dflt f) :
    p ∈ es ∨ ∃ s, p = (k, f s) ∧ (s = dflt ∨ (k, s) ∈ es) := by
  unfold dictUpsert at hp
  by_cases hk : ((es.map Prod.fst).contains k : Bool)
  · rw [if_pos hk] at hp
    rcases List.mem_map.mp hp with ⟨q, hq, hqp⟩
    by_cases hq1 : q.1 = k
    · right
      refine ⟨q.2, ?_, Or.inr ?_⟩
      · rw [← hqp]
        simp [hq1]
      · rw [← hq1]
        exact hq
    · left
      rw [← hqp]
      simpa [hq1] using hq
  · rw [if_neg hk] at hp
    rcases List.mem_append.mp hp with h | h
    · exact Or.inl h
    · right
      exact ⟨dflt, by simpa using h, Or.inl rfl⟩

/-- Entries after the key-ensuring loop of `add_cell`: an old entry, or a
fresh `(d, ∅)` entry for some dependency `d`. -/
theorem ensureKeys_entry_cases (deps : List String)
    (es : List (String × List String)) (p : String × List String)
    (hp : p ∈ deps.foldl
      (fun es d => if (es.map Prod.fst).contains d then es else es ++ [(d, [])]) es) :
    p ∈ es ∨ (p.2 = [] ∧ p.1 ∈ deps) := by
  induction deps generalizing es with
  | nil => exact Or.inl hp
  | cons d ds ih =>
    simp only [List.foldl_cons] at hp
    by_cases hd : (((es.map Prod.fst).contains d : Bool) = true)
    · rw [if_pos hd] at hp
      rcases ih es hp with h | h
      · exact Or.inl h
      · exact Or.inr ⟨h.1, List.mem_cons_of_mem _ h.2⟩
    · rw [if_neg hd] at hp
      rcases ih (es ++ [(d, [])]) hp with h | h
      · rcases List.mem_append.mp h with h | h
        · exact Or.inl h
        · simp only [List.mem_singleton] at h
          subst h
          exact Or.inr ⟨rfl, List.mem_cons_self _ _⟩
      · exact Or.inr ⟨h.1, List.mem_cons_of_mem _ h.2⟩

/-- Key set after the key-ensuring loop of `add_cell`. -/
theorem ensureKeys_keys_mem (deps : List String)
    (es : List (String × List String)) (x : String) :
    x ∈ (deps.foldl
      (fun es d => if (es.map Prod.fst).contains d then es else es ++ [(d, [])]) es).map
        Prod.fst ↔ x ∈ es.map Prod.fst ∨ x ∈ deps := by
  induction deps generalizing es with
  | nil => simp
  | cons d ds ih =>
    simp only [List.foldl_cons]
    by_cases hd : (((es.map Prod.fst).contains d : Bool) = true)
    · rw [if_pos hd, ih]
      have hdm : d ∈ es.map Prod.fst := by simpa using hd
      constructor
      · rintro (h | h)
        · exact Or.inl h
        · exact Or.inr (List.mem_cons_of_mem _ h)
      · rintro (h | h)
        · exact Or.inl h
        · rcases List.mem_cons.mp h with rfl | h
          · exact Or.inl hdm
          · exact Or.inr h
    · rw [if_neg hd, ih]
      simp only [List.map_append, List.map_cons, List.map_nil, List.mem_append,
        List.mem_singleton, List.mem_cons]
      tauto

/-- `add_cell` key membership: the keys afterwards are the old keys, the
cell's id, and the cell's dependencies. -/
theorem add_cell_isKey (g : DependencyGraph) (cell : CellMetadata) (x : String) :
    (g.add_cell cell).isKey x ↔ g.isKey x ∨ x = cell.id ∨ x ∈ cell.dependencies := by
  unfold DependencyGraph.add_cell DependencyGraph.isKey
  rw [ensureKeys_keys_mem, dictUpsert_keys_mem]
  tauto

/-- `add_cell` preserves the closure invariant. -/
theorem add_cell_closed (g : DependencyGraph) (cell : CellMetadata)
    (hg : g.Closed) : (g.add_cell cell).Closed := by
  intro p hp d hd
  rw [add_cell_isKey]
  have hp' := ensureKeys_entry_cases cell.dependencies _ p hp
  rcases hp' with hp' | hp'
  · rcases dictUpsert_entry_cases g.edges cell.id [] _ p hp' with h | ⟨s, hps, hs⟩
    · exact Or.inl (hg p h d hd)
    · rw [hps] at hd
      simp only at hd
      rcases (setUpdate_mem s cell.dependencies d).mp hd with h | h
      · rcases hs with rfl | hs
        · cases h
        · exact Or.inl (hg _ hs d h)
      · exact Or.inr (Or.inr h)
  · rw [hp'.1] at hd
    cases hd

/-- Folding `add_cell` over any cell list preserves the closure invariant. -/
theorem foldl_add_cell_closed (cells : List CellMetadata) (g : DependencyGraph)
    (hg : g.Closed) : (cells.foldl DependencyGraph.add_cell g).Closed := by
  induction cells generalizing g with
  | nil => exact hg
  | cons c cs ih => exact ih _ (add_cell_closed g c hg)

theorem empty_closed : DependencyGraph.empty.Closed := by
  intro p hp
  cases hp

/-! ### Subgraph characterization -/

/-- Lookup in the dict built by the `subgraph` fold. -/
theorem subgraph_fold_lookup (g : DependencyGraph) (nodes : List String)
    (ns : List String) (es : List (String × List String))
    (hinv : ∀ j, lookupVal es j =
      if j ∈ es.map Prod.fst then
        some ((g.downstream j).filter (fun d => nodes.contains d)) else none) :
    ∀ j, lookupVal (ns.foldl (fun es node =>
        dictInsert es node ((g.downstream node).filter (fun d => nodes.contains d)))
        es) j =
      if j ∈ es.map Prod.fst ∨ j ∈ ns then
        some ((g.downstream j).filter (fun d => nodes.contains d)) else none := by
  induction ns generalizing es with
  | nil =>
    intro j
    simp only [List.foldl_nil, List.not_mem_nil, or_false]
    exact hinv j
  | cons n ns ih =>
    intro j
    simp only [List.foldl_cons]
    have hinv' : ∀ j, lookupVal
        (dictInsert es n ((g.downstream n).filter (fun d => nodes.contains d))) j =
        if j ∈ (dictInsert es n
            ((g.downstream n).filter (fun d => nodes.contains d))).map Prod.fst then
          some ((g.downstream j).filter (fun d => nodes.contains d)) else none := by
      intro j
      rw [lookupVal_dictInsert]
      by_cases hj : j = n
      · subst hj
        rw [if_pos ((mem_keys_dictInsert es j _ j).mpr (Or.inr rfl))]
        simp
      · rw [if_neg hj, hinv j]
        by_cases hjm : j ∈ es.map Prod.fst
        · rw [if_pos hjm,
            if_pos ((mem_keys_dictInsert es n _ j).mpr (Or.inl hjm))]
        · rw [if_neg hjm, if_neg (fun h =>
            (mem_keys_dictInsert es n _ j).mp h |>.elim hjm hj)]
    rw [ih _ hinv' j]
    by_cases hsplit : j ∈ (dictInsert es n
        ((g.downstream n).filter (fun d => nodes.contains d))).map Prod.fst ∨ j ∈ ns
    · rw [if_pos hsplit]
      rcases hsplit with h | h
      · rcases (mem_keys_dictInsert es n _ j).mp h with h | rfl
        · rw [if_pos (Or.inl h)]
        · rw [if_pos (Or.inr (List.mem_cons_self _ _))]
      · rw [if_pos (Or.inr (List.mem_cons_of_mem _ h))]
    · rw [if_neg hsplit, if_neg]
      push_neg at hsplit ⊢
      refine ⟨fun h => hsplit.1 ((mem_keys_dictInsert es n _ j).mpr (Or.inl h)), ?_⟩
      intro h
      rcases List.mem_cons.mp h with h | h
      · exact hsplit.1 ((mem_keys_dictInsert es n _ j).mpr (Or.inr h))
      · exact hsplit.2 h

/-- Lookup in a subgraph. -/
theorem subgraph_lookup (g : DependencyGraph) (nodes : List String) (j : String) :
    lookupVal (g.subgraph nodes).edges j =
      if j ∈ nodes then
        some ((g.downstream j).filter (fun d => nodes.contains d)) else none := by
  unfold DependencyGraph.subgraph
  rw [subgraph_fold_lookup g nodes nodes [] (fun j => by simp [lookupVal_nil]) j]
  simp

/-- Keys of a subgraph are exactly the requested subset. -/
theorem subgraph_isKey (g : DependencyGraph) (nodes : List String) (j : String) :
    (g.subgraph nodes).isKey j ↔ j ∈ nodes := by
  unfold DependencyGraph.isKey
  rw [← not_iff_not, ← lookupVal_eq_none, subgraph_lookup]
  by_cases hj : j ∈ nodes
  · simp [hj]
  · simp [hj]

/-- Reference sets of a subgraph. -/
theorem subgraph_downstream (g : DependencyGraph) (nodes : List String) (j : String) :
    (g.subgraph nodes).downstream j =
      if j ∈ nodes then (g.downstream j).filter (fun d => nodes.contains d)
      else [] := by
  have h := subgraph_lookup g nodes j
  by_cases hj : j ∈ nodes
  · rw [if_pos hj] at h ⊢
    show (lookupVal (g.subgraph nodes).edges j).getD [] = _
    rw [h]
    rfl
  · rw [if_neg hj] at h ⊢
    show (lookupVal (g.subgraph nodes).edges j).getD [] = _
    rw [h]
    rfl

/-- The subgraph dict has distinct keys. -/
theorem subgraph_keys_nodup (g : DependencyGraph) (nodes : List String) :
    ((g.subgraph nodes).edges.map Prod.fst).Nodup := by
  unfold DependencyGraph.subgraph
  have main : ∀ (ns : List String) (es : List (String × List String)),
      (es.map Prod.fst).Nodup →
      ((ns.foldl (fun es node =>
        dictInsert es node ((g.downstream node).filter (fun d => nodes.contains d)))
        es).map Prod.fst).Nodup := by
    intro ns
    induction ns with
    | nil => exact fun es h => h
    | cons n ns ih =>
      intro es h
      exact ih _ (nodup_keys_dictInsert h n _)
  exact main nodes [] List.nodup_nil

/-- Every entry of a subgraph is a subset node mapped to the filtered
reference set. -/
theorem subgraph_entry (g : DependencyGraph) (nodes : List String)
    (p : String × List String) (hp : p ∈ (g.subgraph nodes).edges) :
    p.1 ∈ nodes ∧ p.2 = (g.downstream p.1).filter (fun d => nodes.contains d) := by
  have hlv := lookupVal_of_mem (subgraph_keys_nodup g nodes) hp
  rw [subgraph_lookup] at hlv
  by_cases hj : p.1 ∈ nodes
  · rw [if_pos hj] at hlv
    exact ⟨hj, by injection hlv with h; exact h.symm⟩
  · rw [if_neg hj] at hlv
    cases hlv

/-- Every subgraph is closed. -/
theorem subgraph_closed (g : DependencyGraph) (nodes : List String) :
    (g.subgraph nodes).Closed := by
  intro p hp d hd
  rcases subgraph_entry g nodes p hp with ⟨_, hval⟩
  rw [hval] at hd
  rw [subgraph_isKey]
  have := (List.mem_filter.mp hd).2
  simpa using this

/-! ## Claim theorems: graph queries (C5, C6, C9) -/

/-- Helper: membership in `upstream` is membership in `downstream`, for a
well-formed graph. -/
theorem mem_upstream_iff (g : DependencyGraph) (hwf : g.WF)
    (node target : String) :
    node ∈ g.upstream target ↔ target ∈ g.downstream node := by
  constructor
  · intro h
    rcases List.mem_map.mp h with ⟨p, hp, hpn⟩
    rcases List.mem_filter.mp hp with ⟨hpe, hpt⟩
    have htv : target ∈ (p.2 : List String) := by simpa using hpt
    have hlv := lookupVal_of_mem hwf.1 hpe
    unfold DependencyGraph.downstream
    rw [hpn] at hlv
    rw [hlv]
    simpa using htv
  · intro h
    unfold DependencyGraph.downstream at h
    cases hlv : lookupVal g.edges node with
    | none =>
      rw [hlv] at h
      cases h
    | some v =>
      rw [hlv] at h
      have hmem := mem_of_lookupVal hlv
      apply List.mem_map.mpr
      refine ⟨(node, v), List.mem_filter.mpr ⟨hmem, ?_⟩, rfl⟩
      simpa using h

/-- C5: for every well-formed `DependencyGraph` and every pair of node
identifiers `(node, target)`: `node ∈ upstream(target)` if and only if
`target ∈ downstream(node)`. -/
theorem upstream_downstream_iff (g : DependencyGraph) (hwf : g.WF)
    (node target : String) :
    node ∈ g.upstream target ↔ target ∈ g.downstream node :=
  mem_upstream_iff g hwf node target

/-- Concrete graph used by the C5 witness. -/
def gC5 : DependencyGraph := ⟨[("A", ["B"]), ("B", [])]⟩

/-- Witness for C5 at a concrete graph and node pair. -/
theorem upstream_downstream_iff_witness :
    gC5.WF ∧ ("A" ∈ gC5.upstream "B" ↔ "B" ∈ gC5.downstream "A") :=
  ⟨by decide, upstream_downstream_iff gC5 (by decide) "A" "B"⟩

/-- C6: every graph built by a sequence of `add_cell` calls starting from
the empty graph (in particular `from_workbook`), and every graph returned
by `subgraph`, is closed: each identifier occurring in any reference set is
also a key of the graph. -/
theorem graph_closure_invariant :
    (∀ cells : List CellMetadata,
      (cells.foldl DependencyGraph.add_cell DependencyGraph.empty).Closed) ∧
    (∀ wb : WorkbookMetadata, (DependencyGraph.from_workbook wb).Closed) ∧
    (∀ (g : DependencyGraph) (nodes : List String), (g.subgraph nodes).Closed) := by
  refine ⟨fun cells => foldl_add_cell_closed cells _ empty_closed,
    fun wb => ?_, subgraph_closed⟩
  unfold DependencyGraph.from_workbook
  have main : ∀ (sheets : List SheetMetadata) (g : DependencyGraph), g.Closed →
      (sheets.foldl (fun g sheet => sheet.cells.foldl DependencyGraph.add_cell g)
        g).Closed := by
    intro sheets
    induction sheets with
    | nil => exact fun _ h => h
    | cons s ss ih => exact fun g h => ih _ (foldl_add_cell_closed s.cells g h)
  exact main wb.sheets _ empty_closed

/-- Concrete workbook used by the C6 witness: one sheet, one formula cell
`S!A1` referencing `S!B1`, which is never added as a cell itself. -/
def wbC6 : WorkbookMetadata :=
  ⟨"wb", [⟨"S", [⟨"S", "A1", PyVal.none, some "=B1", ["S!B1"], false⟩]⟩]⟩

/-- Witness for C6: in the graph of `wbC6`, the referenced-but-never-added
identifier `S!B1` is a key. -/
theorem graph_closure_invariant_witness :
    (DependencyGraph.from_workbook wbC6).isKey "S!B1" :=
  graph_closure_invariant.2.1 wbC6 ("S!A1", ["S!B1"]) (by decide) "S!B1" (by decide)

/-- C9: `subgraph` keeps exactly the requested nodes as keys, restricts each
retained node's reference set to its intersection with the subset, and
identifiers outside the subset appear neither as keys nor inside any
reference set; concretely, `subgraph({X, Y})` on `X→{Y,Z}, Y→{W}` yields
exactly `X→{Y}` and `Y→{}`. -/
theorem subgraph_spec :
    (∀ (g : DependencyGraph) (nodes : List String) (k : String), k ∈ nodes →
      (g.subgraph nodes).isKey k ∧
      (g.subgraph nodes).downstream k =
        (g.downstream k).filter (fun d => nodes.contains d)) ∧
    (∀ (g : DependencyGraph) (nodes : List String) (k : String), k ∉ nodes →
      ¬ (g.subgraph nodes).isKey k ∧
      ∀ p ∈ (g.subgraph nodes).edges, k ∉ (p.2 : List String)) ∧
    (DependencyGraph.subgraph ⟨[("X", ["Y", "Z"]), ("Y", ["W"])]⟩ ["X", "Y"]).edges
      = [("X", ["Y"]), ("Y", [])] := by
  refine ⟨?_, ?_, by decide⟩
  · intro g nodes k hk
    exact ⟨(subgraph_isKey g nodes k).mpr hk,
      by rw [subgraph_downstream, if_pos hk]⟩
  · intro g nodes k hk
    refine ⟨fun h => hk ((subgraph_isKey g nodes k).mp h), ?_⟩
    intro p hp hkp
    rcases subgraph_entry g nodes p hp with ⟨_, hval⟩
    rw [hval] at hkp
    have hmem := (List.mem_filter.mp hkp).2
    exact hk (by simpa using hmem)

/-- Witness for C9 at the concrete example graph. -/
theorem subgraph_spec_witness :
    "X" ∈ (["X", "Y"] : List String) ∧
      ((DependencyGraph.subgraph ⟨[("X", ["Y", "Z"]), ("Y", ["W"])]⟩
          ["X", "Y"]).isKey "X" ∧
        (DependencyGraph.subgraph ⟨[("X", ["Y", "Z"]), ("Y", ["W"])]⟩
            ["X", "Y"]).downstream "X" =
          ((⟨[("X", ["Y", "Z"]), ("Y", ["W"])]⟩ : DependencyGraph).downstream
              "X").filter (fun d => (["X", "Y"] : List String).contains d)) :=
  ⟨by decide,
    subgraph_spec.1 ⟨[("X", ["Y", "Z"]), ("Y", ["W"])]⟩ ["X", "Y"] "X" (by decide)⟩

/-! ## Topological sort (`DependencyGraph.topological_sort`) -/

/-- In-place adjustment of the value stored under `k` leaves other lookups
unchanged. -/
theorem lookupVal_mapAdjust {β : Type} (es : List (String × β)) (k : String)
    (f : β → β) (j : String) (hj : j ≠ k) :
    lookupVal (es.map (fun p => if p.1 = k then (p.1, f p.2) else p)) j
      = lookupVal es j := by
  induction es with
  | nil => rfl
  | cons q es ih =>
    simp only [List.map_cons]
    by_cases hq : q.1 = k
    · rw [if_pos hq, lookupVal_cons, lookupVal_cons]
      have hqj : ¬ (q.1 = j) := by rw [hq]; exact fun h => hj h.symm
      simp only [if_neg hqj, ih]
    · rw [if_neg hq, lookupVal_cons, lookupVal_cons, ih]

/-- In-place adjustment of the value stored under `k`, seen through the
lookup of `k`. -/
theorem lookupVal_mapAdjust_self {β : Type} (es : List (String × β))
    (k : String) (f : β → β) :
    lookupVal (es.map (fun p => if p.1 = k then (p.1, f p.2) else p)) k
      = (lookupVal es k).map f := by
  induction es with
  | nil => rfl
  | cons q es ih =>
    simp only [List.map_cons]
    by_cases hq : q.1 = k
    · rw [if_pos hq, lookupVal_cons]
      simp [hq, lookupVal_cons]
    · rw [if_neg hq, lookupVal_cons, if_neg hq, lookupVal_cons, if_neg hq, ih]

/-- In-place adjustment does not change the key list. -/
theorem keys_mapAdjust {β : Type} (es : List (String × β)) (k : String)
    (f : β → β) :
    (es.map (fun p => if p.1 = k then (p.1, f p.2) else p)).map Prod.fst
      = es.map Prod.fst := by
  rw [List.map_map]
  apply List.map_congr_left
  intro p _
  by_cases hp : p.1 = k <;> simp [hp]

/-- The in-degree dict of `topological_sort`: identifiers mapped to `Int`
counters (Python integers). -/
abbrev Degrees := List (String × Int)

/-- `if dep in in_degree: in_degree[dep] += 1 else: in_degree[dep] = 1`. -/
def bumpDeg (ds : Degrees) (k : String) : Degrees :=
  if (ds.map Prod.fst).contains k then
    ds.map (fun p => if p.1 = k then (p.1, p.2 + 1) else p)
  else
    ds ++ [(k, 1)]

/-- `in_degree[dep] -= 1` (the Python line can only execute when `dep` is a
key, which the initialization guarantees). -/
def decDeg (ds : Degrees) (k : String) : Degrees :=
  ds.map (fun p => if p.1 = k then (p.1, p.2 - 1) else p)

/-- The initial in-degree dict: zero for every key of `edges`, then one
increment per `(node, dep)` pair of the edge dict. -/
def initDegrees (g : DependencyGraph) : Degrees :=
  g.edges.foldl (fun ds p => p.2.foldl bumpDeg ds)
    (g.edges.map (fun p => (p.1, (0 : Int))))

/-- One pass of the inner `for dep in self.edges.get(node, set())` loop of
`topological_sort`: decrement each dependency's counter and collect, in
order, the dependencies whose counter reaches exactly zero (those are
appended to the worklist). -/
def processDeps (ds : Degrees) : List String → Degrees × List String
  | [] => (ds, [])
  | d :: rest =>
    let ds1 := decDeg ds d
    let r := processDeps ds1 rest
    if lookupVal ds1 d = some 0 then (r.1, d :: r.2) else r

/-- Total of the positive counters: the variant of the worklist loop. -/
def posSum (ds : Degrees) : Nat :=
  (ds.map (fun p => p.2.toNat)).sum

theorem posSum_cons (p : String × Int) (ds : Degrees) :
    posSum (p :: ds) = p.2.toNat + posSum ds := by
  simp [posSum]

theorem decDeg_cons (q : String × Int) (ds : Degrees) (d : String) :
    decDeg (q :: ds) d =
      (if q.1 = d then (q.1, q.2 - 1) else q) :: decDeg ds d := by
  by_cases hq : q.1 = d <;> simp [decDeg, hq]

theorem posSum_decDeg_le (ds : Degrees) (d : String) :
    posSum (decDeg ds d) ≤ posSum ds := by
  induction ds with
  | nil => exact Nat.le_refl _
  | cons q ds ih =>
    rw [decDeg_cons, posSum_cons, posSum_cons]
    by_cases hq : q.1 = d
    · rw [if_pos hq]
      have : (q.2 - 1).toNat ≤ q.2.toNat := by omega
      omega
    · rw [if_neg hq]
      omega

theorem posSum_decDeg_lt (ds : Degrees) (d : String)
    (h : lookupVal (decDeg ds d) d = some 0) :
    posSum (decDeg ds d) + 1 ≤ posSum ds := by
  induction ds with
  | nil => cases h
  | cons q ds ih =>
    rw [decDeg_cons] at h ⊢
    by_cases hq : q.1 = d
    · rw [if_pos hq] at h ⊢
      rw [lookupVal_cons] at h
      simp only [hq, if_pos rfl] at h
      have hq2 : q.2 - 1 = 0 := by injection h
      rw [posSum_cons, posSum_cons]
      have hle := posSum_decDeg_le ds d
      simp only
      omega
    · rw [if_neg hq] at h ⊢
      rw [lookupVal_cons] at h
      simp only [if_neg hq] at h
      have := ih h
      rw [posSum_cons, posSum_cons]
      omega

theorem processDeps_posSum (deps : List String) (ds : Degrees) :
    posSum (processDeps ds deps).1 + (processDeps ds deps).2.length ≤ posSum ds := by
  induction deps generalizing ds with
  | nil => simp [processDeps]
  | cons d rest ih =>
    simp only [processDeps]
    by_cases hcond : lookupVal (decDeg ds d) d = some 0
    · rw [if_pos hcond]
      have h1 := ih (decDeg ds d)
      have h2 := posSum_decDeg_lt ds d hcond
      simp only [List.length_cons]
      omega
    · rw [if_neg hcond]
      have h1 := ih (decDeg ds d)
      have h2 := posSum_decDeg_le ds d
      omega

/-- The worklist loop of `topological_sort` (`while idx < len(queue)`),
with the already-processed queue prefix accumulated in `ordered` and the
unprocessed suffix in `pending`. -/
def kahnLoop (g : DependencyGraph) : List String → Degrees → List String → List String
  | [], _, ordered => ordered
  | n :: rest, ds, ordered =>
    let r := processDeps ds (g.downstream n)
    kahnLoop g (rest ++ r.2) r.1 (ordered ++ [n])
termination_by pending ds _ => pending.length + posSum ds
decreasing_by
  have h := processDeps_posSum (g.downstream n) ds
  simp only [List.length_append, List.length_cons]
  omega

/-- `DependencyGraph.topological_sort`. -/
def DependencyGraph.topological_sort (g : DependencyGraph) :
    Except String (List String) :=
  let in_degree := initDegrees g
  let queue := (in_degree.filter (fun p => p.2 = 0)).map Prod.fst
  let ordered := kahnLoop g queue in_degree []
  if ordered.length ≠ in_degree.length then
    Except.error "Dependency graph contains a cycle"
  else
    Except.ok ordered

/-- The edge relation of the graph: `u` references `v`. -/
def DependencyGraph.hasEdge (g : DependencyGraph) (u v : String) : Prop :=
  v ∈ g.downstream u

/-- Acyclicity: no identifier reaches itself through a nonempty chain of
references. -/
def DependencyGraph.Acyclic (g : DependencyGraph) : Prop :=
  ∀ n, ¬ Relation.TransGen g.hasEdge n n

/-- The distinct node identifiers of the graph: all keys together with all
referenced identifiers, in first-occurrence order. -/
def nodeIds (g : DependencyGraph) : List String :=
  (g.edges.map Prod.fst ++ (g.edges.map Prod.snd).flatten).dedup


/-! ### Characterizing the initial in-degree dict -/

/-- A key is present exactly when its lookup succeeds. -/
theorem mem_keys_iff_lookup {β : Type} (es : List (String × β)) (k : String) :
    k ∈ es.map Prod.fst ↔ lookupVal es k ≠ none := by
  constructor
  · intro h hn
    exact (lookupVal_eq_none es k).mp hn h
  · intro h
    by_contra hk
    exact h ((lookupVal_eq_none es k).mpr hk)

theorem lookupVal_bumpDeg (ds : Degrees) (k j : String) :
    lookupVal (bumpDeg ds k) j =
      if j = k then some ((lookupVal ds k).getD 0 + 1) else lookupVal ds j := by
  unfold bumpDeg
  by_cases hk : ((ds.map Prod.fst).contains k : Bool)
  · rw [if_pos hk]
    have hkm : k ∈ ds.map Prod.fst := by simpa using hk
    by_cases hj : j = k
    · subst hj
      rw [if_pos rfl, lookupVal_mapAdjust_self ds j (fun x => x + 1)]
      rcases hlv : lookupVal ds j with _ | v
      · exact absurd ((lookupVal_eq_none ds j).mp hlv) (by simpa using hkm)
      · simp
    · rw [if_neg hj]
      exact lookupVal_mapAdjust ds k (fun x => x + 1) j hj
  · rw [if_neg hk]
    have hkm : k ∉ ds.map Prod.fst := by simpa using hk
    rw [lookupVal_append_single]
    by_cases hj : j = k
    · subst hj
      rw [(lookupVal_eq_none ds j).mpr hkm]
      simp
    · rw [if_neg hj]
      have hkj : ¬ (k = j) := fun h => hj h.symm
      cases hlv : lookupVal ds j <;> simp [hlv, hkj]

theorem mem_keys_bumpDeg (ds : Degrees) (k j : String) :
    j ∈ (bumpDeg ds k).map Prod.fst ↔ j ∈ ds.map Prod.fst ∨ j = k := by
  rw [mem_keys_iff_lookup, lookupVal_bumpDeg]
  by_cases hj : j = k
  · simp [hj]
  · rw [if_neg hj, ← mem_keys_iff_lookup]
    simp [hj]

theorem nodup_keys_bumpDeg {ds : Degrees} (hnd : (ds.map Prod.fst).Nodup)
    (k : String) : ((bumpDeg ds k).map Prod.fst).Nodup := by
  unfold bumpDeg
  by_cases hk : ((ds.map Prod.fst).contains k : Bool)
  · rw [if_pos hk, keys_mapAdjust ds k (fun x => x + 1)]
    exact hnd
  · rw [if_neg hk]
    have hkm : k ∉ ds.map Prod.fst := by simpa using hk
    simp only [List.map_append, List.map_cons, List.map_nil]
    exact List.Nodup.append hnd (List.nodup_singleton k)
      (by intro a ha hb; simp only [List.mem_singleton] at hb; exact hkm (hb ▸ ha))

theorem lookupVal_decDeg (ds : Degrees) (k j : String) :
    lookupVal (decDeg ds k) j =
      if j = k then (lookupVal ds j).map (fun x => x - 1) else lookupVal ds j := by
  unfold decDeg
  by_cases hj : j = k
  · subst hj
    rw [if_pos rfl]
    exact lookupVal_mapAdjust_self ds j (fun x => x - 1)
  · rw [if_neg hj]
    exact lookupVal_mapAdjust ds k (fun x => x - 1) j hj

theorem keys_decDeg (ds : Degrees) (k : String) :
    (decDeg ds k).map Prod.fst = ds.map Prod.fst :=
  keys_mapAdjust ds k (fun x => x - 1)

/-- Lookup after folding `bumpDeg` over a list of increments. -/
theorem lookupVal_foldl_bumpDeg (l : List String) (ds : Degrees) (j : String) :
    lookupVal (l.foldl bumpDeg ds) j =
      if j ∈ ds.map Prod.fst ∨ j ∈ l then
        some ((lookupVal ds j).getD 0 + (l.count j : Int)) else none := by
  induction l generalizing ds with
  | nil =>
    rw [List.foldl_nil]
    rcases hlv : lookupVal ds j with _ | v
    · have hmem : j ∉ ds.map Prod.fst := (lookupVal_eq_none ds j).mp hlv
      simp [hmem]
    · have hmem : j ∈ ds.map Prod.fst :=
        (mem_keys_iff_lookup ds j).mpr (by rw [hlv]; exact fun h => by cases h)
      simp [hmem, hlv]
  | cons x xs ih =>
    rw [List.foldl_cons, ih (bumpDeg ds x)]
    by_cases hj : j = x
    · subst hj
      have hkey : j ∈ (bumpDeg ds j).map Prod.fst :=
        (mem_keys_bumpDeg ds j j).mpr (Or.inr rfl)
      rw [if_pos (Or.inl hkey), if_pos (Or.inr (List.mem_cons_self j xs))]
      rw [lookupVal_bumpDeg, if_pos rfl, Option.getD_some, List.count_cons_self]
      congr 1
      push_cast
      ring
    · have hiff : (j ∈ (bumpDeg ds x).map Prod.fst ∨ j ∈ xs)
          ↔ (j ∈ ds.map Prod.fst ∨ j ∈ x :: xs) := by
        rw [mem_keys_bumpDeg]
        constructor
        · rintro ((h | h) | h)
          · exact Or.inl h
          · exact absurd h hj
          · exact Or.inr (List.mem_cons_of_mem _ h)
        · rintro (h | h)
          · exact Or.inl (Or.inl h)
          · rcases List.mem_cons.mp h with h | h
            · exact absurd h hj
            · exact Or.inr h
      rw [lookupVal_bumpDeg, if_neg hj, List.count_cons_of_ne hj]
      exact if_congr hiff rfl rfl

theorem mem_keys_foldl_bumpDeg (l : List String) (ds : Degrees) (j : String) :
    j ∈ (l.foldl bumpDeg ds).map Prod.fst ↔ j ∈ ds.map Prod.fst ∨ j ∈ l := by
  rw [mem_keys_iff_lookup, lookupVal_foldl_bumpDeg]
  by_cases h : j ∈ ds.map Prod.fst ∨ j ∈ l
  · rw [if_pos h]
    exact iff_of_true (by simp) h
  · rw [if_neg h]
    exact iff_of_false (by simp) h

theorem nodup_keys_foldl_bumpDeg (l : List String) {ds : Degrees}
    (hnd : (ds.map Prod.fst).Nodup) :
    ((l.foldl bumpDeg ds).map Prod.fst).Nodup := by
  induction l generalizing ds with
  | nil => exact hnd
  | cons x xs ih => exact ih (nodup_keys_bumpDeg hnd x)

/-- Lookup after folding the per-node increment loops over a list of edge
entries. -/
theorem lookupVal_foldl_deps (ps : List (String × List String)) (ds : Degrees)
    (j : String) :
    lookupVal (ps.foldl (fun ds p => p.2.foldl bumpDeg ds) ds) j =
      if j ∈ ds.map Prod.fst ∨ j ∈ (ps.map Prod.snd).flatten then
        some ((lookupVal ds j).getD 0 + ((ps.map Prod.snd).flatten.count j : Int))
      else none := by
  induction ps generalizing ds with
  | nil =>
    rw [List.foldl_nil]
    simp only [List.map_nil, List.flatten_nil, List.not_mem_nil, or_false,
      List.count_nil]
    rcases hlv : lookupVal ds j with _ | v
    · have hmem : j ∉ ds.map Prod.fst := (lookupVal_eq_none ds j).mp hlv
      simp [hmem]
    · have hmem : j ∈ ds.map Prod.fst :=
        (mem_keys_iff_lookup ds j).mpr (by rw [hlv]; exact fun h => by cases h)
      simp [hmem]
  | cons p ps ih =>
    rw [List.foldl_cons, ih (p.2.foldl bumpDeg ds)]
    simp only [List.map_cons, List.flatten_cons, List.count_append]
    have hiff : (j ∈ (p.2.foldl bumpDeg ds).map Prod.fst
          ∨ j ∈ (ps.map Prod.snd).flatten)
        ↔ (j ∈ ds.map Prod.fst ∨ j ∈ p.2 ++ (ps.map Prod.snd).flatten) := by
      rw [mem_keys_foldl_bumpDeg]
      simp only [List.mem_append]
      tauto
    by_cases hc1 : j ∈ ds.map Prod.fst ∨ j ∈ p.2
    · have hlv1 : lookupVal (p.2.foldl bumpDeg ds) j =
          some ((lookupVal ds j).getD 0 + (p.2.count j : Int)) := by
        rw [lookupVal_foldl_bumpDeg, if_pos hc1]
      rw [hlv1]
      have hval : (some ((lookupVal ds j).getD 0 + (p.2.count j : Int))).getD 0
            + ((ps.map Prod.snd).flatten.count j : Int)
          = (lookupVal ds j).getD 0
            + ((p.2.count j : Int) + ((ps.map Prod.snd).flatten.count j : Int)) := by
        rw [Option.getD_some]
        ring
      rw [hval]
      exact if_congr hiff rfl rfl
    · have hlv1 : lookupVal (p.2.foldl bumpDeg ds) j = none := by
        rw [lookupVal_foldl_bumpDeg, if_neg hc1]
      have hlvds : lookupVal ds j = none :=
        (lookupVal_eq_none ds j).mpr (fun h => hc1 (Or.inl h))
      have hcz : p.2.count j = 0 :=
        List.count_eq_zero.mpr (fun h => hc1 (Or.inr h))
      rw [hlv1, hlvds, hcz]
      simp only [Option.getD_none, Nat.zero_add]
      exact if_congr hiff rfl rfl

/-- Lookup in the map initializing every key of the edge dict to zero. -/
theorem lookupVal_mapZero (es : List (String × List String)) (j : String) :
    lookupVal (es.map (fun p => (p.1, (0 : Int)))) j =
      if j ∈ es.map Prod.fst then some 0 else none := by
  induction es with
  | nil => simp [lookupVal_nil]
  | cons q es ih =>
    rw [List.map_cons, lookupVal_cons]
    by_cases hq : q.1 = j
    · simp [hq]
    · rw [if_neg hq, ih, List.map_cons]
      by_cases hm : j ∈ es.map Prod.fst
      · rw [if_pos hm, if_pos (List.mem_cons_of_mem _ hm)]
      · rw [if_neg hm, if_neg ?_]
        rintro h
        rcases List.mem_cons.mp h with h | h
        · exact hq h.symm
        · exact hm h

/-- The initial in-degree of `v` is the number of occurrences of `v` among
all reference sets; absent identifiers have no entry. -/
theorem lookupVal_initDegrees (g : DependencyGraph) (j : String) :
    lookupVal (initDegrees g) j =
      if j ∈ g.edges.map Prod.fst ∨ j ∈ (g.edges.map Prod.snd).flatten then
        some (((g.edges.map Prod.snd).flatten.count j : Int)) else none := by
  unfold initDegrees
  rw [lookupVal_foldl_deps]
  have hkeys : (g.edges.map (fun p => (p.1, (0 : Int)))).map Prod.fst
      = g.edges.map Prod.fst := by
    rw [List.map_map]
    rfl
  rw [hkeys]
  have hval : (lookupVal (g.edges.map (fun p => (p.1, (0 : Int)))) j).getD 0
      = 0 := by
    rw [lookupVal_mapZero]
    by_cases h : j ∈ g.edges.map Prod.fst
    · rw [if_pos h]
      rfl
    · rw [if_neg h]
      rfl
  rw [hval, zero_add]

/-- Keys of the initial in-degree dict: edge-dict keys plus referenced
identifiers. -/
theorem mem_keys_initDegrees (g : DependencyGraph) (j : String) :
    j ∈ (initDegrees g).map Prod.fst ↔
      j ∈ g.edges.map Prod.fst ∨ j ∈ (g.edges.map Prod.snd).flatten := by
  rw [mem_keys_iff_lookup, lookupVal_initDegrees]
  by_cases h : j ∈ g.edges.map Prod.fst ∨ j ∈ (g.edges.map Prod.snd).flatten
  · rw [if_pos h]
    exact iff_of_true (by simp) h
  · rw [if_neg h]
    exact iff_of_false (by simp) h

/-- The keys of the initial in-degree dict are distinct for a well-formed
graph. -/
theorem nodup_keys_initDegrees (g : DependencyGraph) (hwf : g.WF) :
    ((initDegrees g).map Prod.fst).Nodup := by
  unfold initDegrees
  have hbase : ((g.edges.map (fun p => (p.1, (0 : Int)))).map Prod.fst).Nodup := by
    rw [List.map_map]
    exact hwf.1
  have main : ∀ (ps : List (String × List String)) (ds : Degrees),
      (ds.map Prod.fst).Nodup →
      ((ps.foldl (fun ds p => p.2.foldl bumpDeg ds) ds).map Prod.fst).Nodup := by
    intro ps
    induction ps with
    | nil => exact fun _ h => h
    | cons p ps ih => exact fun ds h => ih _ (nodup_keys_foldl_bumpDeg p.2 h)
  exact main g.edges _ hbase

/-- For sets with distinct members, the occurrence count over the flattened
reference sets is the number of entries whose set contains `j`. -/
theorem count_flatten_eq_filter (ps : List (String × List String)) (j : String)
    (hnd : ∀ p ∈ ps, (p.2 : List String).Nodup) :
    (ps.map Prod.snd).flatten.count j
      = (ps.filter (fun p => (p.2 : List String).contains j)).length := by
  induction ps with
  | nil => rfl
  | cons p ps ih =>
    rw [List.map_cons, List.flatten_cons, List.count_append, List.filter_cons]
    have hrest := ih (fun q hq => hnd q (List.mem_cons_of_mem _ hq))
    by_cases hj : j ∈ (p.2 : List String)
    · have h1 : (p.2 : List String).count j = 1 :=
        List.count_eq_one_of_mem (hnd p (List.mem_cons_self _ _)) hj
      have hcont : ((p.2 : List String).contains j : Bool) = true := by
        simpa using hj
      rw [hcont, if_pos rfl, List.length_cons, h1, hrest]
      omega
    · have h0 : (p.2 : List String).count j = 0 := List.count_eq_zero.mpr hj
      have hcont : ((p.2 : List String).contains j : Bool) = false := by
        simpa using hj
      rw [hcont, if_neg (by simp), h0, hrest]
      omega

/-- For a well-formed graph, the initial in-degree of a present identifier
is the size of its upstream set. -/
theorem lookupVal_initDegrees_wf (g : DependencyGraph) (hwf : g.WF) (j : String) :
    lookupVal (initDegrees g) j =
      if j ∈ (initDegrees g).map Prod.fst then
        some ((g.upstream j).length : Int) else none := by
  rw [lookupVal_initDegrees]
  have hcount : (g.edges.map Prod.snd).flatten.count j = (g.upstream j).length := by
    rw [count_flatten_eq_filter g.edges j hwf.2]
    unfold DependencyGraph.upstream
    rw [List.length_map]
  rw [hcount]
  by_cases h : j ∈ g.edges.map Prod.fst ∨ j ∈ (g.edges.map Prod.snd).flatten
  · rw [if_pos h, if_pos ((mem_keys_initDegrees g j).mpr h)]
  · rw [if_neg h, if_neg (fun hk => h ((mem_keys_initDegrees g j).mp hk))]

/-! ### The inner decrement loop -/

/-- Counter values after processing the dependency list of one node (the
list has distinct members, being a Python set). -/
theorem processDeps_lookup (deps : List String) (ds : Degrees)
    (hnd : deps.Nodup) (j : String) :
    lookupVal (processDeps ds deps).1 j =
      if j ∈ deps then (lookupVal ds j).map (fun x => x - 1)
      else lookupVal ds j := by
  induction deps generalizing ds with
  | nil =>
    simp [processDeps]
  | cons d rest ih =>
    simp only [processDeps]
    have hfst : (if lookupVal (decDeg ds d) d = some 0 then
          ((processDeps (decDeg ds d) rest).1, d :: (processDeps (decDeg ds d) rest).2)
          else processDeps (decDeg ds d) rest).1
        = (processDeps (decDeg ds d) rest).1 := by
      by_cases hcond : lookupVal (decDeg ds d) d = some 0
      · rw [if_pos hcond]
      · rw [if_neg hcond]
    rw [hfst, ih (decDeg ds d) (List.nodup_cons.mp hnd).2]
    by_cases hj : j = d
    · subst hj
      have hjr : j ∉ rest := (List.nodup_cons.mp hnd).1
      rw [if_neg hjr, lookupVal_decDeg, if_pos rfl,
        if_pos (List.mem_cons_self j rest)]
    · rw [lookupVal_decDeg, if_neg hj]
      by_cases hjr : j ∈ rest
      · rw [if_pos hjr, if_pos (List.mem_cons_of_mem _ hjr)]
      · rw [if_neg hjr, if_neg ?_]
        intro h
        rcases List.mem_cons.mp h with h | h
        · exact hj h
        · exact hjr h

/-- The dependencies appended to the worklist are exactly those whose
counter was `1` before the loop. -/
theorem processDeps_newly (deps : List String) (ds : Degrees)
    (hnd : deps.Nodup) :
    (processDeps ds deps).2 =
      deps.filter (fun d => decide (lookupVal ds d = some 1)) := by
  induction deps generalizing ds with
  | nil => rfl
  | cons d rest ih =>
    simp only [processDeps, List.filter_cons]
    have hcond : (lookupVal (decDeg ds d) d = some 0) ↔ (lookupVal ds d = some 1) := by
      rw [lookupVal_decDeg, if_pos rfl]
      cases hlv : lookupVal ds d with
      | none =>
        constructor
        · intro h
          simp at h
        · intro h
          cases h
      | some v =>
        show some (v - 1) = some 0 ↔ some v = some 1
        constructor
        · intro h
          have : v - 1 = 0 := by injection h
          have : v = 1 := by omega
          rw [this]
        · intro h
          have : v = 1 := by injection h
          rw [this]
          rfl
    have hrest : (processDeps (decDeg ds d) rest).2 =
        rest.filter (fun x => decide (lookupVal ds x = some 1)) := by
      rw [ih (decDeg ds d) (List.nodup_cons.mp hnd).2]
      apply List.filter_congr
      intro x hx
      have hxd : ¬ (x = d) := by
        intro h
        exact (List.nodup_cons.mp hnd).1 (h ▸ hx)
      rw [lookupVal_decDeg, if_neg hxd]
    rw [apply_ite Prod.snd, hrest]
    exact if_congr (hcond.trans (by simp)) rfl rfl

/-- The decrement loop does not change the key list. -/
theorem keys_processDeps (deps : List String) (ds : Degrees) :
    (processDeps ds deps).1.map Prod.fst = ds.map Prod.fst := by
  induction deps generalizing ds with
  | nil => rfl
  | cons d rest ih =>
    simp only [processDeps]
    rw [apply_ite Prod.fst]
    have h1 : (processDeps (decDeg ds d) rest).1.map Prod.fst = ds.map Prod.fst := by
      rw [ih (decDeg ds d), keys_decDeg]
    by_cases hcond : lookupVal (decDeg ds d) d = some 0
    · rw [if_pos hcond]
      exact h1
    · rw [if_neg hcond]
      exact h1

/-! ### Facts about `upstream` and `downstream` -/

/-- `upstream` sets have distinct members for a well-formed graph. -/
theorem upstream_nodup (g : DependencyGraph) (hwf : g.WF) (v : String) :
    (g.upstream v).Nodup := by
  unfold DependencyGraph.upstream
  exact ((List.filter_sublist g.edges).map Prod.fst).nodup hwf.1

/-- Members of `upstream v` are keys of the edge dict. -/
theorem upstream_subset_keys (g : DependencyGraph) (v u : String)
    (hu : u ∈ g.upstream v) : u ∈ g.edges.map Prod.fst := by
  unfold DependencyGraph.upstream at hu
  rcases List.mem_map.mp hu with ⟨p, hp, hpu⟩
  exact hpu ▸ List.mem_map_of_mem Prod.fst (List.mem_of_mem_filter hp)

/-- `downstream` sets have distinct members for a well-formed graph. -/
theorem downstream_nodup (g : DependencyGraph) (hwf : g.WF) (n : String) :
    (g.downstream n).Nodup := by
  unfold DependencyGraph.downstream
  cases hlv : lookupVal g.edges n with
  | none => exact List.nodup_nil
  | some v => exact hwf.2 (n, v) (mem_of_lookupVal hlv)

/-- Every referenced identifier occurs among the flattened reference sets. -/
theorem downstream_subset_flatten (g : DependencyGraph) (n d : String)
    (hd : d ∈ g.downstream n) : d ∈ (g.edges.map Prod.snd).flatten := by
  unfold DependencyGraph.downstream at hd
  cases hlv : lookupVal g.edges n with
  | none =>
    rw [hlv] at hd
    cases hd
  | some v =>
    rw [hlv] at hd
    exact List.mem_flatten.mpr ⟨v, List.mem_map_of_mem Prod.snd (mem_of_lookupVal hlv), hd⟩

/-! ### Index arithmetic for the emitted order -/

theorem indexOf_append_left {a : String} {l1 l2 : List String} (h : a ∈ l1) :
    (l1 ++ l2).indexOf a = l1.indexOf a := by
  induction l1 with
  | nil => cases h
  | cons x xs ih =>
    rw [List.cons_append, List.indexOf_cons, List.indexOf_cons]
    by_cases hx : x = a
    · simp [hx]
    · have : (x == a) = false := by simpa using hx
      rw [this]
      simp only [cond_false]
      rcases List.mem_cons.mp h with h' | h'
      · exact absurd h'.symm hx
      · rw [ih h']

theorem indexOf_append_self {n : String} {l : List String} (h : n ∉ l) :
    (l ++ [n]).indexOf n = l.length := by
  induction l with
  | nil => simp [List.indexOf_cons]
  | cons x xs ih =>
    rw [List.cons_append, List.indexOf_cons]
    have hx : ¬ (x = n) := fun hx => h (hx ▸ List.mem_cons_self x xs)
    have : (x == n) = false := by simpa using hx
    rw [this]
    simp only [cond_false, List.length_cons]
    rw [ih (fun hm => h (List.mem_cons_of_mem _ hm))]

theorem indexOf_lt_length_of_mem {a : String} {l : List String} (h : a ∈ l) :
    l.indexOf a < l.length := by
  induction l with
  | nil => cases h
  | cons x xs ih =>
    rw [List.indexOf_cons]
    by_cases hx : x = a
    · simp [hx]
    · have : (x == a) = false := by simpa using hx
      rw [this]
      simp only [cond_false, List.length_cons]
      rcases List.mem_cons.mp h with h' | h'
      · exact absurd h'.symm hx
      · exact Nat.succ_lt_succ (ih h')

/-! ### The worklist invariant -/

theorem filter_notmem_append (l ordered : List String) (n : String) :
    l.filter (fun u => decide (u ∉ ordered ++ [n]))
      = (l.filter (fun u => decide (u ∉ ordered))).filter
          (fun u => decide (u ≠ n)) := by
  rw [List.filter_filter]
  apply List.filter_congr
  intro u _
  by_cases h1 : u ∈ ordered <;> by_cases h2 : u = n <;> simp [h1, h2]

theorem length_filter_remove {l ordered : List String} {n : String}
    (hnd : l.Nodup) (hn : n ∈ l) (hno : n ∉ ordered) :
    (l.filter (fun u => decide (u ∉ ordered ++ [n]))).length + 1
      = (l.filter (fun u => decide (u ∉ ordered))).length := by
  rw [filter_notmem_append]
  have hnd' : (l.filter (fun u => decide (u ∉ ordered))).Nodup := hnd.filter _
  have hnl' : n ∈ l.filter (fun u => decide (u ∉ ordered)) :=
    List.mem_filter.mpr ⟨hn, by simpa using hno⟩
  have herase : (l.filter (fun u => decide (u ∉ ordered))).filter
      (fun u => decide (u ≠ n))
      = (l.filter (fun u => decide (u ∉ ordered))).erase n := by
    rw [List.Nodup.erase_eq_filter hnd' n]
    apply List.filter_congr
    intro x _
    by_cases hx : x = n <;> simp [hx]
  rw [herase, List.length_erase_of_mem hnl']
  have hpos : 0 < (l.filter (fun u => decide (u ∉ ordered))).length :=
    List.length_pos.mpr (List.ne_nil_of_mem hnl')
  omega

theorem filter_notmem_append_of_not_mem {l ordered : List String} {n : String}
    (hn : n ∉ l) :
    l.filter (fun u => decide (u ∉ ordered ++ [n]))
      = l.filter (fun u => decide (u ∉ ordered)) := by
  apply List.filter_congr
  intro u hu
  have hun : ¬ (u = n) := fun h => hn (h ▸ hu)
  by_cases h1 : u ∈ ordered <;> simp [h1, hun]

theorem nodup_all_eq_singleton {l : List String} {a : String} (hnd : l.Nodup)
    (ha : a ∈ l) (hall : ∀ b ∈ l, b = a) : l = [a] := by
  cases l with
  | nil => cases ha
  | cons x xs =>
    have hx : x = a := hall x (List.mem_cons_self x xs)
    subst hx
    cases xs with
    | nil => rfl
    | cons y ys =>
      exfalso
      have hya : y = x := hall y (List.mem_cons_of_mem x (List.mem_cons_self y ys))
      apply (List.nodup_cons.mp hnd).1
      rw [← hya]
      exact List.mem_cons_self y ys

/-- The loop invariant of `topological_sort`'s worklist, for a fixed graph:
the processed prefix `ordered`, the unprocessed suffix `pending`, and the
current counters `ds`. -/
structure KahnInv (g : DependencyGraph) (pending : List String) (ds : Degrees)
    (ordered : List String) : Prop where
  nd : (ordered ++ pending).Nodup
  sub : ∀ x ∈ ordered ++ pending, x ∈ (initDegrees g).map Prod.fst
  keys : ds.map Prod.fst = (initDegrees g).map Prod.fst
  deg : ∀ v ∈ (initDegrees g).map Prod.fst,
      lookupVal ds v =
        some (((g.upstream v).filter (fun u => decide (u ∉ ordered))).length : Int)
  mem_iff : ∀ v ∈ (initDegrees g).map Prod.fst,
      (v ∈ ordered ++ pending ↔ ∀ u ∈ g.upstream v, u ∈ ordered)
  ord : ∀ v ∈ ordered, ∀ u ∈ g.upstream v,
      u ∈ ordered ∧ ordered.indexOf u < ordered.indexOf v

/-- One step of the worklist loop preserves the invariant. -/
theorem kahnInv_step (g : DependencyGraph) (hwf : g.WF) (n : String)
    (rest : List String) (ds : Degrees) (ordered : List String)
    (h : KahnInv g (n :: rest) ds ordered) :
    KahnInv g (rest ++ (processDeps ds (g.downstream n)).2)
      (processDeps ds (g.downstream n)).1 (ordered ++ [n]) := by
  have hdnd : (g.downstream n).Nodup := downstream_nodup g hwf n
  have hnewly := processDeps_newly (g.downstream n) ds hdnd
  have hlook := processDeps_lookup (g.downstream n) ds hdnd
  obtain ⟨hnd_ord, hnd_pend, hdisj⟩ := List.nodup_append.mp h.nd
  have hn_ord : n ∉ ordered := fun hn => hdisj hn (List.mem_cons_self n rest)
  have hnode_n : n ∈ (initDegrees g).map Prod.fst :=
    h.sub n (List.mem_append_right _ (List.mem_cons_self n rest))
  have hdeps_node : ∀ d ∈ g.downstream n, d ∈ (initDegrees g).map Prod.fst :=
    fun d hd =>
      (mem_keys_initDegrees g d).mpr (Or.inr (downstream_subset_flatten g n d hd))
  have hedge : ∀ v, v ∈ g.downstream n ↔ n ∈ g.upstream v :=
    fun v => (mem_upstream_iff g hwf n v).symm
  have hnewly_mem : ∀ v, v ∈ (processDeps ds (g.downstream n)).2 ↔
      v ∈ g.downstream n ∧ lookupVal ds v = some 1 := by
    intro v
    rw [hnewly, List.mem_filter]
    simp
  have hsingleton : ∀ v ∈ (processDeps ds (g.downstream n)).2,
      (g.upstream v).filter (fun u => decide (u ∉ ordered)) = [n] := by
    intro v hv
    rcases (hnewly_mem v).mp hv with ⟨hvd, hv1⟩
    have hdeg := h.deg v (hdeps_node v hvd)
    rw [hv1] at hdeg
    have hlen : ((g.upstream v).filter (fun u => decide (u ∉ ordered))).length = 1 := by
      have h1 : (1 : Int) =
          (((g.upstream v).filter (fun u => decide (u ∉ ordered))).length : Int) := by
        injection hdeg
      omega
    have hnf : n ∈ (g.upstream v).filter (fun u => decide (u ∉ ordered)) :=
      List.mem_filter.mpr ⟨(hedge v).mp hvd, by simpa using hn_ord⟩
    rcases List.length_eq_one.mp hlen with ⟨a, ha⟩
    rw [ha] at hnf ⊢
    have hna : n = a := List.mem_singleton.mp hnf
    rw [hna]
  have hnewly_fresh : ∀ v ∈ (processDeps ds (g.downstream n)).2,
      v ∉ ordered ++ n :: rest := by
    intro v hv hvmem
    rcases (hnewly_mem v).mp hv with ⟨hvd, hv1⟩
    have hall := (h.mem_iff v (hdeps_node v hvd)).mp hvmem
    have hempty : (g.upstream v).filter (fun u => decide (u ∉ ordered)) = [] := by
      rw [List.eq_nil_iff_forall_not_mem]
      intro a ha
      rcases List.mem_filter.mp ha with ⟨ha1, ha2⟩
      exact (by simpa using ha2 : a ∉ ordered) (hall a ha1)
    have hdeg := h.deg v (hdeps_node v hvd)
    rw [hv1, hempty] at hdeg
    have h1 : (1 : Int) = (([] : List String).length : Int) := by injection hdeg
    simp at h1
  have hsplit : (ordered ++ [n]) ++ (rest ++ (processDeps ds (g.downstream n)).2)
      = (ordered ++ n :: rest) ++ (processDeps ds (g.downstream n)).2 := by
    simp
  refine ⟨?_, ?_, ?_, ?_, ?_, ?_⟩
  · -- nd
    rw [hsplit]
    refine List.Nodup.append h.nd ?_ ?_
    · rw [hnewly]
      exact hdnd.filter _
    · intro a ha hb
      exact hnewly_fresh a hb ha
  · -- sub
    intro x hx
    have hx' : x ∈ (ordered ++ n :: rest) ++ (processDeps ds (g.downstream n)).2 := by
      rw [← hsplit]
      exact hx
    rcases List.mem_append.mp hx' with hx1 | hx2
    · exact h.sub x hx1
    · exact hdeps_node x ((hnewly_mem x).mp hx2).1
  · -- keys
    rw [keys_processDeps]
    exact h.keys
  · -- deg
    intro v hv
    rw [hlook v]
    by_cases hvd : v ∈ g.downstream n
    · rw [if_pos hvd, h.deg v hv]
      have hnup : n ∈ g.upstream v := (hedge v).mp hvd
      have hlen := length_filter_remove (upstream_nodup g hwf v) hnup hn_ord
      show some ((((g.upstream v).filter
          (fun u => decide (u ∉ ordered))).length : Int) - 1) = _
      congr 1
      omega
    · rw [if_neg hvd, h.deg v hv]
      have hnup : n ∉ g.upstream v := fun hn => hvd ((hedge v).mpr hn)
      rw [filter_notmem_append_of_not_mem hnup]
  · -- mem_iff
    intro v hv
    constructor
    · intro hvmem
      have hvmem' : v ∈ (ordered ++ n :: rest)
          ++ (processDeps ds (g.downstream n)).2 := by
        rw [← hsplit]
        exact hvmem
      intro u hu
      rcases List.mem_append.mp hvmem' with h1 | h2
      · exact List.mem_append_left _ ((h.mem_iff v hv).mp h1 u hu)
      · by_cases huo : u ∈ ordered
        · exact List.mem_append_left _ huo
        · have husing : u ∈ ([n] : List String) := by
            rw [← hsingleton v h2]
            exact List.mem_filter.mpr ⟨hu, by simpa using huo⟩
          rw [List.mem_singleton.mp husing]
          exact List.mem_append_right _ (List.mem_singleton.mpr rfl)
    · intro hall
      by_cases hallold : ∀ u ∈ g.upstream v, u ∈ ordered
      · have hvold := (h.mem_iff v hv).mpr hallold
        rw [hsplit]
        exact List.mem_append_left _ hvold
      · push_neg at hallold
        rcases hallold with ⟨u0, hu0, hu0o⟩
        have hu0n : u0 = n := by
          rcases List.mem_append.mp (hall u0 hu0) with h1 | h1
          · exact absurd h1 hu0o
          · exact List.mem_singleton.mp h1
        rw [hu0n] at hu0
        have hvdeps : v ∈ g.downstream n := (hedge v).mpr hu0
        have hfilter_sub : ∀ b ∈ (g.upstream v).filter
            (fun u => decide (u ∉ ordered)), b = n := by
          intro b hb
          rcases List.mem_filter.mp hb with ⟨hb1, hb2⟩
          rcases List.mem_append.mp (hall b hb1) with h1 | h1
          · exact absurd h1 (by simpa using hb2)
          · exact List.mem_singleton.mp h1
        have hnfil : n ∈ (g.upstream v).filter (fun u => decide (u ∉ ordered)) :=
          List.mem_filter.mpr ⟨hu0, by simpa using hn_ord⟩
        have hfil_eq : (g.upstream v).filter (fun u => decide (u ∉ ordered)) = [n] :=
          nodup_all_eq_singleton ((upstream_nodup g hwf v).filter _) hnfil hfilter_sub
        have hlv1 : lookupVal ds v = some 1 := by
          rw [h.deg v hv, hfil_eq]
          rfl
        have hvnew : v ∈ (processDeps ds (g.downstream n)).2 :=
          (hnewly_mem v).mpr ⟨hvdeps, hlv1⟩
        exact List.mem_append_right _ (List.mem_append_right _ hvnew)
  · -- ord
    intro v hvmem u hu
    rcases List.mem_append.mp hvmem with hvo | hvn
    · obtain ⟨huo, hidx⟩ := h.ord v hvo u hu
      refine ⟨List.mem_append_left _ huo, ?_⟩
      rw [indexOf_append_left huo, indexOf_append_left hvo]
      exact hidx
    · have hvn' : v = n := List.mem_singleton.mp hvn
      subst hvn'
      have hallord : ∀ w ∈ g.upstream v, w ∈ ordered :=
        (h.mem_iff v hnode_n).mp
          (List.mem_append_right _ (List.mem_cons_self v rest))
      have huo := hallord u hu
      refine ⟨List.mem_append_left _ huo, ?_⟩
      rw [indexOf_append_left huo, indexOf_append_self hn_ord]
      exact indexOf_lt_length_of_mem huo

/-- Running the worklist loop from an invariant state yields a final state
satisfying the invariant with an empty worklist. -/
theorem kahnLoop_spec (g : DependencyGraph) (hwf : g.WF) :
    ∀ (pending : List String) (ds : Degrees) (ordered : List String),
      KahnInv g pending ds ordered →
      ∃ ds2, KahnInv g [] ds2 (kahnLoop g pending ds ordered) := by
  have main : ∀ (m : Nat) (pending : List String) (ds : Degrees)
      (ordered : List String), pending.length + posSum ds ≤ m →
      KahnInv g pending ds ordered →
      ∃ ds2, KahnInv g [] ds2 (kahnLoop g pending ds ordered) := by
    intro m
    induction m with
    | zero =>
      intro pending ds ordered hle h
      cases pending with
      | nil =>
        simp only [kahnLoop]
        exact ⟨ds, h⟩
      | cons n rest =>
        simp at hle
    | succ m ih =>
      intro pending ds ordered hle h
      cases pending with
      | nil =>
        simp only [kahnLoop]
        exact ⟨ds, h⟩
      | cons n rest =>
        simp only [kahnLoop]
        have hstep := kahnInv_step g hwf n rest ds ordered h
        apply ih
        · have hps := processDeps_posSum (g.downstream n) ds
          simp only [List.length_cons] at hle
          simp only [List.length_append]
          omega
        · exact hstep
  intro pending ds ordered h
  exact main (pending.length + posSum ds) pending ds ordered (Nat.le_refl _) h

/-- The invariant holds at loop entry. -/
theorem kahnInv_init (g : DependencyGraph) (hwf : g.WF) :
    KahnInv g (((initDegrees g).filter (fun p => p.2 = 0)).map Prod.fst)
      (initDegrees g) [] := by
  have hndk := nodup_keys_initDegrees g hwf
  have hqueue_mem : ∀ v, v ∈ ((initDegrees g).filter (fun p => p.2 = 0)).map Prod.fst
      ↔ lookupVal (initDegrees g) v = some 0 := by
    intro v
    constructor
    · intro hv
      rcases List.mem_map.mp hv with ⟨q, hq, hqv⟩
      rcases List.mem_filter.mp hq with ⟨hq1, hq2⟩
      have hq0 : q.2 = 0 := by simpa using hq2
      have := lookupVal_of_mem hndk hq1
      rw [hqv, hq0] at this
      exact this
    · intro hv
      have hmem := mem_of_lookupVal hv
      apply List.mem_map.mpr
      exact ⟨(v, 0), List.mem_filter.mpr ⟨hmem, by simp⟩, rfl⟩
  have hdeg0 : ∀ v ∈ (initDegrees g).map Prod.fst,
      lookupVal (initDegrees g) v = some ((g.upstream v).length : Int) := by
    intro v hv
    rw [lookupVal_initDegrees_wf g hwf v, if_pos hv]
  refine ⟨?_, ?_, rfl, ?_, ?_, ?_⟩
  · rw [List.nil_append]
    exact ((List.filter_sublist (initDegrees g)).map Prod.fst).nodup hndk
  · intro x hx
    rw [List.nil_append] at hx
    rcases List.mem_map.mp hx with ⟨q, hq, hqx⟩
    exact hqx ▸ List.mem_map_of_mem Prod.fst (List.mem_of_mem_filter hq)
  · intro v hv
    rw [hdeg0 v hv]
    have hfull : (g.upstream v).filter (fun u => decide (u ∉ ([] : List String)))
        = g.upstream v := by
      apply List.filter_eq_self.mpr
      intro a _
      simp
  
    rw [hfull]
  · intro v hv
    rw [List.nil_append, hqueue_mem v, hdeg0 v hv]
    constructor
    · intro h0 u hu
      have hlen0 : (g.upstream v).length = 0 := by
        have h1 : ((g.upstream v).length : Int) = 0 := by injection h0
        omega
      rw [List.length_eq_zero.mp hlen0] at hu
      cases hu
    · intro hall
      have : g.upstream v = [] := by
        rw [List.eq_nil_iff_forall_not_mem]
        intro a ha
        have := hall a ha
        cases this
      rw [this]
      rfl
  · intro v hv
    cases hv

/-- In a finite nonempty set of nodes in which every node has a predecessor
inside the set, there is a cycle. -/
theorem exists_cycle_of_forall_pred {E : String → String → Prop}
    (R : List String) (hne : R ≠ [])
    (hstep : ∀ v ∈ R, ∃ u, u ∈ R ∧ E u v) :
    ∃ x, Relation.TransGen E x x := by
  classical
  have hstep' : ∀ v : {x // x ∈ R}, ∃ u : {x // x ∈ R}, E u.val v.val := by
    intro v
    rcases hstep v.val v.property with ⟨u, hu, hE⟩
    exact ⟨⟨u, hu⟩, hE⟩
  choose F hF using hstep'
  rcases List.exists_mem_of_ne_nil R hne with ⟨x0, hx0⟩
  have hseq : ∀ k, E (F^[k + 1] ⟨x0, hx0⟩).val (F^[k] ⟨x0, hx0⟩).val := by
    intro k
    rw [Function.iterate_succ_apply' F k _]
    exact hF (F^[k] ⟨x0, hx0⟩)
  have hchain : ∀ i m,
      Relation.TransGen E (F^[i + 1 + m] ⟨x0, hx0⟩).val (F^[i] ⟨x0, hx0⟩).val := by
    intro i m
    induction m with
    | zero => exact Relation.TransGen.single (hseq i)
    | succ m ihm =>
      have hstep1 := hseq (i + 1 + m)
      have harith : i + 1 + (m + 1) = (i + 1 + m) + 1 := by omega
      rw [harith]
      exact Relation.TransGen.head hstep1 ihm
  have hmaps : ∀ k ∈ Finset.range (R.length + 1),
      (F^[k] ⟨x0, hx0⟩).val ∈ R.toFinset := by
    intro k _
    exact List.mem_toFinset.mpr (F^[k] ⟨x0, hx0⟩).property
  have hcard : R.toFinset.card < (Finset.range (R.length + 1)).card := by
    rw [Finset.card_range]
    exact Nat.lt_succ_of_le R.toFinset_card_le
  rcases Finset.exists_ne_map_eq_of_card_lt_of_maps_to hcard hmaps with
    ⟨i, _, j, _, hij, heq⟩
  rcases Nat.lt_or_ge i j with hlt | hge
  · obtain ⟨m, rfl⟩ : ∃ m, j = i + 1 + m := ⟨j - (i + 1), by omega⟩
    refine ⟨(F^[i] ⟨x0, hx0⟩).val, ?_⟩
    have := hchain i m
    rw [← heq] at this
    exact this
  · have hlt' : j < i := Nat.lt_of_le_of_ne hge (fun hh => hij hh.symm)
    obtain ⟨m, rfl⟩ : ∃ m, i = j + 1 + m := ⟨i - (j + 1), by omega⟩
    refine ⟨(F^[j] ⟨x0, hx0⟩).val, ?_⟩
    have := hchain j m
    rw [heq] at this
    exact this

/-! ### Assembling the `topological_sort` facts -/

/-- Unfolding the body of `topological_sort` (lets expanded). -/
theorem topological_sort_def (g : DependencyGraph) :
    g.topological_sort =
      (if (kahnLoop g (((initDegrees g).filter (fun p => p.2 = 0)).map Prod.fst)
          (initDegrees g) []).length ≠ (initDegrees g).length then
        Except.error "Dependency graph contains a cycle"
      else
        Except.ok (kahnLoop g (((initDegrees g).filter (fun p => p.2 = 0)).map
          Prod.fst) (initDegrees g) [])) := rfl

/-- A successful sort returns the loop result, of full length. -/
theorem topo_ok_elim (g : DependencyGraph) (order : List String)
    (hok : g.topological_sort = Except.ok order) :
    order = kahnLoop g (((initDegrees g).filter (fun p => p.2 = 0)).map Prod.fst)
        (initDegrees g) []
      ∧ order.length = (initDegrees g).length := by
  rw [topological_sort_def] at hok
  by_cases hlen : (kahnLoop g (((initDegrees g).filter (fun p => p.2 = 0)).map
      Prod.fst) (initDegrees g) []).length ≠ (initDegrees g).length
  · rw [if_pos hlen] at hok
    cases hok
  · rw [if_neg hlen] at hok
    have heq : kahnLoop g (((initDegrees g).filter (fun p => p.2 = 0)).map
        Prod.fst) (initDegrees g) [] = order := by
      injection hok
    push_neg at hlen
    exact ⟨heq.symm, heq ▸ hlen⟩

theorem length_eq_of_nodup_of_mem_iff {l1 l2 : List String} (h1 : l1.Nodup)
    (h2 : l2.Nodup) (hmem : ∀ a, a ∈ l1 ↔ a ∈ l2) : l1.length = l2.length := by
  rw [← List.toFinset_card_of_nodup h1, ← List.toFinset_card_of_nodup h2]
  congr 1
  ext a
  simp only [List.mem_toFinset]
  exact hmem a

/-- Facts about a successfully returned order: no duplicates, exactly the
node identifiers, and every referencing node strictly precedes each node it
references. -/
theorem topological_sort_ok_bundle (g : DependencyGraph) (hwf : g.WF)
    (order : List String) (hok : g.topological_sort = Except.ok order) :
    order.Nodup ∧
    (∀ v, v ∈ order ↔ v ∈ (initDegrees g).map Prod.fst) ∧
    (∀ u v, v ∈ g.downstream u →
      u ∈ order ∧ v ∈ order ∧ order.indexOf u < order.indexOf v) := by
  obtain ⟨horder, hlen⟩ := topo_ok_elim g order hok
  obtain ⟨ds2, hinv⟩ := kahnLoop_spec g hwf _ _ _ (kahnInv_init g hwf)
  rw [← horder] at hinv
  have hnd : order.Nodup := by
    have h0 := hinv.nd
    rwa [List.append_nil] at h0
  have hsub : ∀ x ∈ order, x ∈ (initDegrees g).map Prod.fst := by
    intro x hx
    exact hinv.sub x (by rwa [List.append_nil])
  have hlenkeys : order.length = ((initDegrees g).map Prod.fst).length := by
    rw [List.length_map]
    exact hlen
  have hmemiff : ∀ v, v ∈ order ↔ v ∈ (initDegrees g).map Prod.fst := by
    have hfin : order.toFinset = ((initDegrees g).map Prod.fst).toFinset := by
      apply Finset.eq_of_subset_of_card_le
      · intro a ha
        exact List.mem_toFinset.mpr (hsub a (List.mem_toFinset.mp ha))
      · rw [List.toFinset_card_of_nodup (nodup_keys_initDegrees g hwf),
          List.toFinset_card_of_nodup hnd, hlenkeys]
    intro v
    constructor
    · exact hsub v
    · intro hv
      have hvf : v ∈ order.toFinset := by
        rw [hfin]
        exact List.mem_toFinset.mpr hv
      exact List.mem_toFinset.mp hvf
  refine ⟨hnd, hmemiff, ?_⟩
  intro u v hedge
  have hu_up : u ∈ g.upstream v := (mem_upstream_iff g hwf u v).mpr hedge
  have hvkeys : v ∈ (initDegrees g).map Prod.fst :=
    (mem_keys_initDegrees g v).mpr (Or.inr (downstream_subset_flatten g u v hedge))
  have hvorder : v ∈ order := (hmemiff v).mpr hvkeys
  have hord := hinv.ord v hvorder u hu_up
  exact ⟨hord.1, hvorder, hord.2⟩

/-- A successful sort implies acyclicity. -/
theorem topo_ok_acyclic (g : DependencyGraph) (hwf : g.WF) (order : List String)
    (hok : g.topological_sort = Except.ok order) : g.Acyclic := by
  obtain ⟨hnd, hmem, hord⟩ := topological_sort_ok_bundle g hwf order hok
  intro n hcyc
  have hmono : ∀ a b, Relation.TransGen g.hasEdge a b →
      order.indexOf a < order.indexOf b := by
    intro a b h
    induction h with
    | single hab => exact (hord _ _ hab).2.2
    | tail _ hbc ih => exact Nat.lt_trans ih (hord _ _ hbc).2.2
  exact absurd (hmono n n hcyc) (Nat.lt_irrefl _)

/-- Acyclicity implies the sort succeeds. -/
theorem topo_acyclic_ok (g : DependencyGraph) (hwf : g.WF) (hacyc : g.Acyclic) :
    ∃ order, g.topological_sort = Except.ok order := by
  by_cases hlen : (kahnLoop g (((initDegrees g).filter (fun p => p.2 = 0)).map
      Prod.fst) (initDegrees g) []).length ≠ (initDegrees g).length
  · exfalso
    obtain ⟨ds2, hinv⟩ := kahnLoop_spec g hwf _ _ _ (kahnInv_init g hwf)
    have hnd : (kahnLoop g (((initDegrees g).filter (fun p => p.2 = 0)).map
        Prod.fst) (initDegrees g) []).Nodup := by
      have h0 := hinv.nd
      rwa [List.append_nil] at h0
    have hsub : ∀ x ∈ kahnLoop g (((initDegrees g).filter (fun p => p.2 = 0)).map
        Prod.fst) (initDegrees g) [], x ∈ (initDegrees g).map Prod.fst := by
      intro x hx
      exact hinv.sub x (by rwa [List.append_nil])
    have hRne : ((initDegrees g).map Prod.fst).filter
        (fun v => decide (v ∉ kahnLoop g (((initDegrees g).filter
          (fun p => p.2 = 0)).map Prod.fst) (initDegrees g) [])) ≠ [] := by
      intro hRnil
      have hallin : ∀ v ∈ (initDegrees g).map Prod.fst,
          v ∈ kahnLoop g (((initDegrees g).filter (fun p => p.2 = 0)).map
            Prod.fst) (initDegrees g) [] := by
        intro v hv
        by_contra hvn
        have hmem : v ∈ ((initDegrees g).map Prod.fst).filter
            (fun v => decide (v ∉ kahnLoop g (((initDegrees g).filter
              (fun p => p.2 = 0)).map Prod.fst) (initDegrees g) [])) :=
          List.mem_filter.mpr ⟨hv, by simpa using hvn⟩
        rw [hRnil] at hmem
        cases hmem
      have hleneq : (kahnLoop g (((initDegrees g).filter (fun p => p.2 = 0)).map
          Prod.fst) (initDegrees g) []).length
          = ((initDegrees g).map Prod.fst).length :=
        length_eq_of_nodup_of_mem_iff hnd (nodup_keys_initDegrees g hwf)
          (fun a => ⟨fun ha => hsub a ha, fun ha => hallin a ha⟩)
      rw [List.length_map] at hleneq
      exact hlen hleneq
    have hstep : ∀ v ∈ ((initDegrees g).map Prod.fst).filter
        (fun v => decide (v ∉ kahnLoop g (((initDegrees g).filter
          (fun p => p.2 = 0)).map Prod.fst) (initDegrees g) [])),
        ∃ u, u ∈ ((initDegrees g).map Prod.fst).filter
          (fun v => decide (v ∉ kahnLoop g (((initDegrees g).filter
            (fun p => p.2 = 0)).map Prod.fst) (initDegrees g) []))
          ∧ g.hasEdge u v := by
      intro v hv
      rcases List.mem_filter.mp hv with ⟨hvk, hvno⟩
      have hvno' : v ∉ kahnLoop g (((initDegrees g).filter
          (fun p => p.2 = 0)).map Prod.fst) (initDegrees g) [] := by
        simpa using hvno
      have hnotall : ¬ (∀ u ∈ g.upstream v,
          u ∈ kahnLoop g (((initDegrees g).filter (fun p => p.2 = 0)).map
            Prod.fst) (initDegrees g) []) := by
        intro hall
        have hiff := hinv.mem_iff v hvk
        rw [List.append_nil] at hiff
        exact hvno' (hiff.mpr hall)
      push_neg at hnotall
      rcases hnotall with ⟨u, hu, huno⟩
      have huk : u ∈ (initDegrees g).map Prod.fst :=
        (mem_keys_initDegrees g u).mpr (Or.inl (upstream_subset_keys g v u hu))
      exact ⟨u, List.mem_filter.mpr ⟨huk, by simpa using huno⟩,
        (mem_upstream_iff g hwf u v).mp hu⟩
    rcases exists_cycle_of_forall_pred _ hRne hstep with ⟨x, hx⟩
    exact hacyc x hx
  · refine ⟨kahnLoop g (((initDegrees g).filter (fun p => p.2 = 0)).map Prod.fst)
      (initDegrees g) [], ?_⟩
    rw [topological_sort_def, if_neg hlen]

/-- The failing case raises exactly the cycle error. -/
theorem topo_error_iff (g : DependencyGraph) (hwf : g.WF) :
    g.topological_sort = Except.error "Dependency graph contains a cycle"
      ↔ ¬ g.Acyclic := by
  constructor
  · intro herr hacyc
    rcases topo_acyclic_ok g hwf hacyc with ⟨order, hok⟩
    rw [hok] at herr
    cases herr
  · intro hnacyc
    cases hsort : g.topological_sort with
    | ok order => exact absurd (topo_ok_acyclic g hwf order hsort) hnacyc
    | error e =>
      rw [topological_sort_def] at hsort
      by_cases hlen : (kahnLoop g (((initDegrees g).filter
          (fun p => p.2 = 0)).map Prod.fst) (initDegrees g) []).length
          ≠ (initDegrees g).length
      · rw [if_pos hlen] at hsort
        injection hsort with he
        rw [← he]
      · rw [if_neg hlen] at hsort
        cases hsort

/-- The in-degree dict enumerates the distinct node identifiers. -/
theorem initDegrees_length_eq_nodeIds (g : DependencyGraph) (hwf : g.WF) :
    (initDegrees g).length = (nodeIds g).length := by
  have h1 : (initDegrees g).length = ((initDegrees g).map Prod.fst).length :=
    (List.length_map _ _).symm
  rw [h1]
  apply length_eq_of_nodup_of_mem_iff (nodup_keys_initDegrees g hwf)
    (List.nodup_dedup _)
  intro a
  rw [mem_keys_initDegrees]
  rw [List.mem_dedup, List.mem_append]

/-- Fuel-indexed version of the worklist loop, used to evaluate concrete
runs (the loop itself uses well-founded recursion). -/
def kahnLoopFuel (g : DependencyGraph) :
    Nat → List String → Degrees → List String → List String
  | _, [], _, ordered => ordered
  | 0, pending, _, ordered => ordered ++ pending
  | fuel + 1, n :: rest, ds, ordered =>
    let r := processDeps ds (g.downstream n)
    kahnLoopFuel g fuel (rest ++ r.2) r.1 (ordered ++ [n])

/-- With enough fuel the fuel-indexed loop agrees with the loop. -/
theorem kahnLoop_eq_fuel (g : DependencyGraph) :
    ∀ (fuel : Nat) (pending : List String) (ds : Degrees) (ordered : List String),
      pending.length + posSum ds ≤ fuel →
      kahnLoop g pending ds ordered = kahnLoopFuel g fuel pending ds ordered := by
  intro fuel
  induction fuel with
  | zero =>
    intro pending ds ordered hle
    cases pending with
    | nil => simp only [kahnLoop, kahnLoopFuel]
    | cons n rest => simp at hle
  | succ f ih =>
    intro pending ds ordered hle
    cases pending with
    | nil => simp only [kahnLoop, kahnLoopFuel]
    | cons n rest =>
      simp only [kahnLoop, kahnLoopFuel]
      apply ih
      have hps := processDeps_posSum (g.downstream n) ds
      simp only [List.length_cons] at hle
      simp only [List.length_append]
      omega

/-! ## Claim theorems: topological sort (C1, C2) -/

/-- C1: for every well-formed acyclic `DependencyGraph`, the list returned
by `topological_sort` places dependents before dependencies: whenever
node `u`'s reference set contains node `v` (`v ∈ downstream(u)`), `u`
appears strictly before `v` in the returned order. (The acyclicity
hypothesis is recorded to match the claim; by C2 it is equivalent to the
sort returning at all.) -/
theorem topological_sort_order_spec (g : DependencyGraph) (hwf : g.WF)
    (_hacyc : g.Acyclic) (order : List String)
    (hok : g.topological_sort = Except.ok order) (u v : String)
    (hedge : v ∈ g.downstream u) :
    u ∈ order ∧ v ∈ order ∧ order.indexOf u < order.indexOf v :=
  (topological_sort_ok_bundle g hwf order hok).2.2 u v hedge

/-- Concrete graph used by the C1 and C2 witnesses: `A` references `B`. -/
def gKahn : DependencyGraph := ⟨[("A", ["B"]), ("B", [])]⟩

/-- Concrete run of `topological_sort` on `gKahn`. -/
theorem gKahn_topological_sort : gKahn.topological_sort = Except.ok ["A", "B"] := by
  rw [topological_sort_def]
  rw [kahnLoop_eq_fuel gKahn 8 _ _ _ (by decide)]
  rfl

/-- Witness for C1 at the concrete graph `gKahn`. -/
theorem topological_sort_order_spec_witness :
    gKahn.WF ∧ gKahn.Acyclic ∧
      gKahn.topological_sort = Except.ok ["A", "B"] ∧
      "B" ∈ gKahn.downstream "A" ∧
      ("A" ∈ (["A", "B"] : List String) ∧ "B" ∈ (["A", "B"] : List String) ∧
        (["A", "B"] : List String).indexOf "A"
          < (["A", "B"] : List String).indexOf "B") := by
  have hwf : gKahn.WF := by decide
  have hok : gKahn.topological_sort = Except.ok ["A", "B"] := gKahn_topological_sort
  have hacyc : gKahn.Acyclic := topo_ok_acyclic gKahn hwf ["A", "B"] hok
  exact ⟨hwf, hacyc, hok, by decide,
    topological_sort_order_spec gKahn hwf hacyc ["A", "B"] hok "A" "B" (by decide)⟩

/-- C2: for every well-formed `DependencyGraph`, `topological_sort`
succeeds exactly on acyclic graphs, fails with the cycle error exactly on
cyclic graphs (no partial ordering is ever returned), and on success the
length of the returned list is the number of distinct node identifiers
(all keys together with all referenced identifiers). -/
theorem topological_sort_cycle_spec (g : DependencyGraph) (hwf : g.WF) :
    ((∃ order, g.topological_sort = Except.ok order) ↔ g.Acyclic) ∧
    (g.topological_sort = Except.error "Dependency graph contains a cycle"
      ↔ ¬ g.Acyclic) ∧
    (∀ order, g.topological_sort = Except.ok order →
      order.length = (nodeIds g).length) := by
  refine ⟨⟨fun h => ?_, topo_acyclic_ok g hwf⟩, topo_error_iff g hwf, ?_⟩
  · rcases h with ⟨order, hok⟩
    exact topo_ok_acyclic g hwf order hok
  · intro order hok
    rw [(topo_ok_elim g order hok).2, initDegrees_length_eq_nodeIds g hwf]

/-- Witness for C2 at the concrete graph `gKahn`. -/
theorem topological_sort_cycle_spec_witness :
    gKahn.WF ∧
      (((∃ order, gKahn.topological_sort = Except.ok order) ↔ gKahn.Acyclic) ∧
      (gKahn.topological_sort = Except.error "Dependency graph contains a cycle"
        ↔ ¬ gKahn.Acyclic) ∧
      (∀ order, gKahn.topological_sort = Except.ok order →
        order.length = (nodeIds gKahn).length)) :=
  ⟨by decide, topological_sort_cycle_spec gKahn (by decide)⟩

/-! ## Reference parser (`src/excel_analyzer/parser.py`)

The repository calls `openpyxl.utils.range_boundaries`,
`openpyxl.utils.cell.get_column_letter` and `openpyxl.formula.Tokenizer`.
These are external collaborators; `range_boundaries` and
`get_column_letter` are embedded below following the library
(`ABSOLUTE_RE`-based parsing: optional `$`, one to three letters, optional
`$`, digits, optionally a colon and a second such half; mismatches raise
`ValueError`), while the tokenizer is treated as an oracle: functions that
consume a formula's tokens take the token list as an argument. -/

/-- A token of the external formula tokenizer: its text, type (e.g.
`OPERAND`, `FUNC`) and subtype (e.g. `RANGE`, `OPEN`). -/
structure Token where
  value : String
  ttype : String
  subtype : String
deriving DecidableEq, Repr

/-- Bijective base-26 column letters (`get_column_letter`), with explicit
structural fuel (the first argument; `idx` itself is always enough). -/
def colCharsAux : Nat → Nat → List Char
  | _, 0 => []
  | 0, _ + 1 => []
  | fuel + 1, n + 1 => colCharsAux fuel (n / 26) ++ [Char.ofNat (65 + n % 26)]

/-- `openpyxl.utils.cell.get_column_letter` for `1 ≤ idx ≤ 18278` (the
library's supported range; the embedding is total). -/
def get_column_letter (idx : Nat) : String :=
  String.mk (colCharsAux idx idx)

/-- `openpyxl.utils.cell.column_index_from_string` (letters to 1-based
column index, case-insensitive). -/
def column_index_from_string (letters : List Char) : Nat :=
  letters.foldl (fun acc c => acc * 26 + (c.toUpper.toNat - 64)) 0

/-- Digit run to the integer it denotes (`int(...)` on a digit string). -/
def digitsToNat (digits : List Char) : Nat :=
  digits.foldl (fun acc c => acc * 10 + (c.toNat - 48)) 0

/-- Consume one optional leading `$` (the `[$]?` pieces of `ABSOLUTE_RE`). -/
def takeDollar : List Char → List Char
  | '$' :: rest => rest
  | cs => cs

/-- Match one half of `ABSOLUTE_RE`:
`[$]?([A-Za-z]{1,3})?[$]?(\d+)?`. Returns the optional letter group, the
optional digit group and the unconsumed remainder, or `none` when more
than three consecutive letters make the whole pattern unmatchable. -/
def parseHalf (cs : List Char) :
    Option (Option (List Char) × Option (List Char) × List Char) :=
  let cs1 := takeDollar cs
  let letters := cs1.takeWhile (fun c => c.isAlpha)
  let cs2 := cs1.dropWhile (fun c => c.isAlpha)
  if letters.length > 3 then none
  else
    let cs3 := takeDollar cs2
    let digits := cs3.takeWhile (fun c => c.isDigit)
    let cs4 := cs3.dropWhile (fun c => c.isDigit)
    some (if letters.isEmpty then none else some letters,
      if digits.isEmpty then none else some digits, cs4)

/-- `openpyxl.utils.range_boundaries`: parse a (dollar-stripped or raw)
coordinate or range string into `(min_col, min_row, max_col, max_row)`
components, any of which may be absent for row-only/column-only ranges;
`ValueError` when the string does not match the pattern or the present
groups are an invalid combination. -/
def range_boundaries (s : String) :
    Except PyErr (Option Nat × Option Nat × Option Nat × Option Nat) :=
  match parseHalf s.toList with
  | Option.none => Except.error PyErr.valueError
  | Option.some (minc, minr, rest) =>
    match rest with
    | [] =>
      Except.ok (minc.map column_index_from_string, minr.map digitsToNat,
        minc.map column_index_from_string, minr.map digitsToNat)
    | ':' :: rest2 =>
      match parseHalf rest2 with
      | Option.none => Except.error PyErr.valueError
      | Option.some (maxc, maxr, rest3) =>
        if rest3.isEmpty then
          if (minc.isSome && maxc.isSome && minr.isSome && maxr.isSome)
              || (minc.isSome && maxc.isSome && !(minr.isSome || maxr.isSome))
              || (minr.isSome && maxr.isSome && !(minc.isSome || maxc.isSome)) then
            Except.ok (minc.map column_index_from_string, minr.map digitsToNat,
              maxc.map column_index_from_string, maxr.map digitsToNat)
          else Except.error PyErr.valueError
        else Except.error PyErr.valueError
    | _ => Except.error PyErr.valueError

/-- Python `str.strip(c)`: drop the character from both ends. -/
def pyStrip (s : String) (c : Char) : String :=
  String.mk (((s.toList.dropWhile (fun x => x = c)).reverse.dropWhile
    (fun x => x = c)).reverse)

/-- Python `ref.split("!", 1)` when `"!" in ref`: the parts before and
after the first `!`. -/
def splitFirstBang (s : String) : Option (String × String) :=
  if s.toList.contains '!' then
    some (String.mk (s.toList.takeWhile (fun c => c ≠ '!')),
      String.mk ((s.toList.dropWhile (fun c => c ≠ '!')).drop 1))
  else
    none

/-- Python `coord.replace("$", "")`. -/
def removeDollars (s : String) : String :=
  String.mk (s.toList.filter (fun c => c ≠ '$'))

/-- Python `str.startswith`. -/
def pyStartsWith (s pre : String) : Bool :=
  pre.toList.isPrefixOf s.toList

/-- Lines 28-33 of `parse_reference`: resolve the sheet-name prefix
(quote-stripped) or fall back to the current sheet. -/
def resolve_sheet (ref current_sheet : String) : String × String :=
  match splitFirstBang ref with
  | Option.some (a, b) => (pyStrip a '\'', b)
  | Option.none => (current_sheet, ref)

/-- `parse_reference` from `parser.py`: expand a cell or range reference
into workbook-qualified cell ids. `ValueError` surfaces from
`range_boundaries` on malformed ranges; unbounded ranges (absent row or
column groups) hit Python's `range(None, ...)` and raise `TypeError`. -/
def parse_reference (ref current_sheet : String) : Except PyErr (List String) :=
  let sc : String × String := resolve_sheet ref current_sheet
  let sheet_name := sc.1
  let coord := removeDollars sc.2
  if ¬ (coord.toList.contains ':') then
    Except.ok [sheet_name ++ "!" ++ coord]
  else
    match range_boundaries coord with
    | Except.error e => Except.error e
    | Except.ok (minc, minr, maxc, maxr) =>
      match minc, maxc with
      | Option.some mc, Option.some xc =>
        let cols := List.range' mc (xc + 1 - mc)
        if cols.isEmpty then Except.ok []
        else
          match minr, maxr with
          | Option.some mr, Option.some xr =>
            Except.ok ((cols.map (fun col =>
              (List.range' mr (xr + 1 - mr)).map (fun row =>
                sheet_name ++ "!" ++ get_column_letter col ++ toString row))).flatten)
          | _, _ => Except.error PyErr.typeError
      | _, _ => Except.error PyErr.typeError

/-- Strict lexicographic order on code-point sequences (Python's string
comparison). -/
def charsLt : List Char → List Char → Bool
  | [], [] => false
  | [], _ :: _ => true
  | _ :: _, [] => false
  | a :: as, b :: bs => if a < b then true else if a = b then charsLt as bs else false

/-- Python `a < b` on strings. -/
def pyStrLt (a b : String) : Bool := charsLt a.toList b.toList

/-- Python `sorted(set(...))` on strings: the lexicographically sorted
enumeration of the distinct elements. -/
def py_sorted_set (l : List String) : List String :=
  List.insertionSort (fun a b => pyStrLt b a = false) l.dedup

/-- The token loop of `extract_dependencies`: expand every RANGE/REF
token, skipping those whose expansion raises `ValueError`; other
exceptions propagate. -/
def extractAux (current_sheet : String) :
    List Token → List String → Except PyErr (List String)
  | [], acc => Except.ok (py_sorted_set acc)
  | t :: rest, acc =>
    if t.subtype = "RANGE" ∨ t.subtype = "REF" then
      match parse_reference t.value current_sheet with
      | Except.ok l => extractAux current_sheet rest (acc ++ l)
      | Except.error PyErr.valueError => extractAux current_sheet rest acc
      | Except.error PyErr.typeError => Except.error PyErr.typeError
    else extractAux current_sheet rest acc

/-- `extract_dependencies` from `parser.py`, over the token list produced
by the external tokenizer for the formula. -/
def extract_dependencies (items : List Token) (current_sheet : String) :
    Except PyErr (List String) :=
  extractAux current_sheet items []


/-! ## Claim theorems: reference parsing (C3, C7) -/

theorem charsLt_irrefl (a : List Char) : charsLt a a = false := by
  induction a with
  | nil => rfl
  | cons x as ih =>
    unfold charsLt
    rw [if_neg (lt_irrefl x), if_pos rfl]
    exact ih

theorem charsLt_trans (a : List Char) :
    ∀ b c, charsLt a b = true → charsLt b c = true → charsLt a c = true := by
  induction a with
  | nil =>
    intro b c hab hbc
    cases b with
    | nil => cases hab
    | cons y bs =>
      cases c with
      | nil => cases hbc
      | cons z cs => rfl
  | cons x as ih =>
    intro b c hab hbc
    cases b with
    | nil => cases hab
    | cons y bs =>
      cases c with
      | nil => cases hbc
      | cons z cs =>
        unfold charsLt at hab hbc ⊢
        rcases lt_trichotomy x y with hxy | hxy | hxy
        · rcases lt_trichotomy y z with hyz | hyz | hyz
          · rw [if_pos (lt_trans hxy hyz)]
          · rw [← hyz]
            rw [if_pos hxy]
          · rw [if_neg (lt_asymm hyz), if_neg (ne_of_gt hyz)] at hbc
            cases hbc
        · subst hxy
          rw [if_neg (lt_irrefl x), if_pos rfl] at hab
          rcases lt_trichotomy x z with hyz | hyz | hyz
          · rw [if_pos hyz]
          · subst hyz
            rw [if_neg (lt_irrefl x), if_pos rfl] at hbc ⊢
            exact ih bs cs hab hbc
          · rw [if_neg (lt_asymm hyz), if_neg (ne_of_gt hyz)] at hbc
            cases hbc
        · rw [if_neg (lt_asymm hxy), if_neg (ne_of_gt hxy)] at hab
          cases hab
  
theorem charsLt_trichotomy (a : List Char) :
    ∀ b, charsLt a b = true ∨ a = b ∨ charsLt b a = true := by
  induction a with
  | nil =>
    intro b
    cases b with
    | nil => exact Or.inr (Or.inl rfl)
    | cons y bs => exact Or.inl rfl
  | cons x as ih =>
    intro b
    cases b with
    | nil => exact Or.inr (Or.inr rfl)
    | cons y bs =>
      unfold charsLt
      rcases lt_trichotomy x y with hxy | hxy | hxy
      · rw [if_pos hxy]
        exact Or.inl rfl
      · subst hxy
        rw [if_neg (lt_irrefl x), if_pos rfl, if_neg (lt_irrefl x), if_pos rfl]
        rcases ih bs with h | h | h
        · exact Or.inl h
        · exact Or.inr (Or.inl (by rw [h]))
        · exact Or.inr (Or.inr h)
      · rw [if_neg (lt_asymm hxy), if_neg (ne_of_gt hxy), if_pos hxy]
        exact Or.inr (Or.inr rfl)

theorem pyStrLt_asymm {a b : String} (h : pyStrLt a b = true) :
    pyStrLt b a = false := by
  by_contra hc
  have hba : pyStrLt b a = true := by
    cases hx : pyStrLt b a
    · exact absurd hx hc
    · rfl
  have := charsLt_trans a.toList b.toList a.toList h hba
  rw [charsLt_irrefl] at this
  cases this

instance : IsTotal String (fun a b => pyStrLt b a = false) := by
  constructor
  intro a b
  cases hab : pyStrLt a b
  · exact Or.inr rfl
  · exact Or.inl (pyStrLt_asymm hab)

instance : IsTrans String (fun a b => pyStrLt b a = false) := by
  constructor
  intro a b c hba hcb
  cases hca : pyStrLt c a
  · rfl
  · exfalso
    rcases charsLt_trichotomy b.toList c.toList with h | h | h
    · have := charsLt_trans b.toList c.toList a.toList h hca
      rw [show charsLt b.toList a.toList = pyStrLt b a from rfl, hba] at this
      cases this
    · have hbc : b = c := by
        have := congrArg String.mk h
        simpa using this
      rw [hbc, hca] at hba
      cases hba
    · rw [show charsLt c.toList b.toList = pyStrLt c b from rfl, hcb] at h
      cases h

theorem pyStrLt_of_le_of_ne {a b : String} (hle : pyStrLt b a = false)
    (hne : a ≠ b) : pyStrLt a b = true := by
  rcases charsLt_trichotomy a.toList b.toList with h | h | h
  · exact h
  · exfalso
    apply hne
    have := congrArg String.mk h
    simpa using this
  · rw [show charsLt b.toList a.toList = pyStrLt b a from rfl, hle] at h
    cases h

theorem py_sorted_set_sorted (l : List String) :
    (py_sorted_set l).Sorted (fun a b => pyStrLt a b = true) ∧
      (py_sorted_set l).Nodup := by
  have hs : (py_sorted_set l).Sorted (fun a b => pyStrLt b a = false) :=
    List.sorted_insertionSort (fun a b => pyStrLt b a = false) l.dedup
  have hnd : (py_sorted_set l).Nodup :=
    ((List.perm_insertionSort (fun a b => pyStrLt b a = false)
      l.dedup).nodup_iff).mpr l.nodup_dedup
  refine ⟨?_, hnd⟩
  exact List.Pairwise.imp₂ (fun a b hle hne => pyStrLt_of_le_of_ne hle hne) hs hnd

theorem py_sorted_set_mem (l : List String) (x : String) :
    x ∈ py_sorted_set l ↔ x ∈ l := by
  unfold py_sorted_set
  rw [(List.perm_insertionSort (fun a b => pyStrLt b a = false) l.dedup).mem_iff]
  exact List.mem_dedup

theorem extractAux_ok_shape (S : String) :
    ∀ (ts : List Token) (acc l : List String),
      extractAux S ts acc = Except.ok l → ∃ m, l = py_sorted_set m := by
  intro ts
  induction ts with
  | nil =>
    intro acc l h
    have h' : Except.ok (py_sorted_set acc) = Except.ok l := h
    exact ⟨acc, (Except.ok.inj h').symm⟩
  | cons t rest ih =>
    intro acc l h
    unfold extractAux at h
    by_cases hs : t.subtype = "RANGE" ∨ t.subtype = "REF"
    · rw [if_pos hs] at h
      cases hpr : parse_reference t.value S with
      | ok pl =>
        rw [hpr] at h
        exact ih _ _ h
      | error e =>
        rw [hpr] at h
        cases e with
        | valueError => exact ih _ _ h
        | typeError => exact Except.noConfusion h
    · rw [if_neg hs] at h
      exact ih _ _ h

theorem extractAux_cons_skip (S : String) (t : Token) (rest : List Token)
    (acc : List String) (h : ¬(t.subtype = "RANGE" ∨ t.subtype = "REF")) :
    extractAux S (t :: rest) acc = extractAux S rest acc := by
  conv_lhs => rw [extractAux]
  rw [if_neg h]

theorem extractAux_cons_ok (S : String) (t : Token) (rest : List Token)
    (acc l : List String) (hs : t.subtype = "RANGE" ∨ t.subtype = "REF")
    (h : parse_reference t.value S = Except.ok l) :
    extractAux S (t :: rest) acc = extractAux S rest (acc ++ l) := by
  conv_lhs => rw [extractAux]
  rw [if_pos hs, h]

theorem parse_reference_range_eval (ref S sh co : String) (mc mr xc xr : Nat)
    (hsc : resolve_sheet ref S = (sh, co))
    (hcolon : (removeDollars co).toList.contains ':' = true)
    (hrb : range_boundaries (removeDollars co) =
      Except.ok (Option.some mc, Option.some mr, Option.some xc, Option.some xr)) :
    parse_reference ref S =
      (if (List.range' mc (xc + 1 - mc)).isEmpty then Except.ok ([] : List String)
       else Except.ok (((List.range' mc (xc + 1 - mc)).map (fun col =>
         (List.range' mr (xr + 1 - mr)).map (fun row =>
           sh ++ "!" ++ get_column_letter col ++ toString row))).flatten)) := by
  unfold parse_reference
  rw [hsc]
  dsimp only
  rw [hcolon, hrb]
  rfl

/-- C7: every successful `extract_dependencies` result is
lexicographically sorted with no duplicate identifiers; a bounded range
reference expands to exactly the Cartesian product of its column and row
spans; and on the tokens of `"=SUM(Sheet2!C3:C5)"` the result is
`["Sheet2!C3", "Sheet2!C4", "Sheet2!C5"]` for every current sheet. -/
theorem extract_dependencies_spec :
    (∀ (items : List Token) (S : String) (l : List String),
        extract_dependencies items S = Except.ok l →
        l.Sorted (fun a b => pyStrLt a b = true) ∧ l.Nodup) ∧
    (∀ (ref S sh co : String) (mc mr xc xr : Nat) (l : List String),
        resolve_sheet ref S = (sh, co) →
        (removeDollars co).toList.contains ':' = true →
        range_boundaries (removeDollars co) =
          Except.ok (Option.some mc, Option.some mr, Option.some xc,
            Option.some xr) →
        parse_reference ref S = Except.ok l →
        ∀ x, x ∈ l ↔ ∃ c r, mc ≤ c ∧ c ≤ xc ∧ mr ≤ r ∧ r ≤ xr ∧
          x = sh ++ "!" ++ get_column_letter c ++ toString r) ∧
    (∀ S : String,
        extract_dependencies
          [⟨"SUM(", "FUNC", "OPEN"⟩, ⟨"Sheet2!C3:C5", "OPERAND", "RANGE"⟩,
            ⟨")", "FUNC", "CLOSE"⟩] S =
          Except.ok ["Sheet2!C3", "Sheet2!C4", "Sheet2!C5"]) := by
  refine ⟨?_, ?_, ?_⟩
  · intro items S l h
    obtain ⟨m, rfl⟩ := extractAux_ok_shape S items [] l h
    exact py_sorted_set_sorted m
  · intro ref S sh co mc mr xc xr l hsc hcolon hrb hok x
    rw [parse_reference_range_eval ref S sh co mc mr xc xr hsc hcolon hrb]
      at hok
    by_cases hemp : (List.range' mc (xc + 1 - mc)).isEmpty = true
    · rw [if_pos hemp] at hok
      have hl : l = [] := (Except.ok.inj hok).symm
      subst hl
      have hn : xc + 1 - mc = 0 := by
        have h0 := List.isEmpty_iff.mp hemp
        simpa using congrArg List.length h0
      constructor
      · intro h
        cases h
      · rintro ⟨c, r, h1, h2, h3, h4, h5⟩
        omega
    · rw [if_neg hemp] at hok
      have hl : l = ((List.range' mc (xc + 1 - mc)).map (fun col =>
          (List.range' mr (xr + 1 - mr)).map (fun row =>
            sh ++ "!" ++ get_column_letter col ++ toString row))).flatten :=
        (Except.ok.inj hok).symm
      subst hl
      have hmc : mc ≤ xc := by
        by_contra hc
        apply hemp
        have h0 : xc + 1 - mc = 0 := by omega
        rw [h0]
        rfl
      constructor
      · intro hx
        rcases List.mem_flatten.mp hx with ⟨sub, hsub, hxsub⟩
        rcases List.mem_map.mp hsub with ⟨c, hc, rfl⟩
        rcases List.mem_map.mp hxsub with ⟨r, hr, rfl⟩
        rcases List.mem_range'_1.mp hc with ⟨hc1, hc2⟩
        rcases List.mem_range'_1.mp hr with ⟨hr1, hr2⟩
        exact ⟨c, r, hc1, by omega, hr1, by omega, rfl⟩
      · rintro ⟨c, r, h1, h2, h3, h4, rfl⟩
        apply List.mem_flatten.mpr
        refine ⟨(List.range' mr (xr + 1 - mr)).map (fun row =>
          sh ++ "!" ++ get_column_letter c ++ toString row), ?_, ?_⟩
        · exact List.mem_map.mpr
            ⟨c, List.mem_range'_1.mpr ⟨h1, by omega⟩, rfl⟩
        · exact List.mem_map.mpr
            ⟨r, List.mem_range'_1.mpr ⟨h3, by omega⟩, rfl⟩
  · intro S
    have hpr : parse_reference "Sheet2!C3:C5" S =
        Except.ok ["Sheet2!C3", "Sheet2!C4", "Sheet2!C5"] := by
      rw [parse_reference_range_eval "Sheet2!C3:C5" S "Sheet2" "C3:C5"
        3 3 3 5 rfl rfl rfl]
      rfl
    show extractAux S
      [⟨"SUM(", "FUNC", "OPEN"⟩, ⟨"Sheet2!C3:C5", "OPERAND", "RANGE"⟩,
        ⟨")", "FUNC", "CLOSE"⟩] [] = _
    rw [extractAux_cons_skip S ⟨"SUM(", "FUNC", "OPEN"⟩ _ _ (by decide),
      extractAux_cons_ok S ⟨"Sheet2!C3:C5", "OPERAND", "RANGE"⟩ _ _ _
        (Or.inl rfl) hpr,
      extractAux_cons_skip S ⟨")", "FUNC", "CLOSE"⟩ _ _ (by decide)]
    rfl

theorem extract_dependencies_spec_witness :
    ((["Sheet2!C3", "Sheet2!C4", "Sheet2!C5"] : List String).Sorted
        (fun a b => pyStrLt a b = true) ∧
      (["Sheet2!C3", "Sheet2!C4", "Sheet2!C5"] : List String).Nodup) ∧
    (("Sheet2!C4" ∈ (["Sheet2!C3", "Sheet2!C4", "Sheet2!C5"] : List String)) ↔
      ∃ c r, 3 ≤ c ∧ c ≤ 3 ∧ 3 ≤ r ∧ r ≤ 5 ∧
        "Sheet2!C4" = "Sheet2" ++ "!" ++ get_column_letter c ++ toString r) ∧
    extract_dependencies
      [⟨"SUM(", "FUNC", "OPEN"⟩, ⟨"Sheet2!C3:C5", "OPERAND", "RANGE"⟩,
        ⟨")", "FUNC", "CLOSE"⟩] "Sheet1" =
      Except.ok ["Sheet2!C3", "Sheet2!C4", "Sheet2!C5"] := by
  refine ⟨?_, ?_, ?_⟩
  · exact extract_dependencies_spec.1
      [⟨"SUM(", "FUNC", "OPEN"⟩, ⟨"Sheet2!C3:C5", "OPERAND", "RANGE"⟩,
        ⟨")", "FUNC", "CLOSE"⟩] "Sheet1"
      ["Sheet2!C3", "Sheet2!C4", "Sheet2!C5"] (by rfl)
  · exact extract_dependencies_spec.2.1 "Sheet2!C3:C5" "Sheet1" "Sheet2"
      "C3:C5" 3 3 3 5 ["Sheet2!C3", "Sheet2!C4", "Sheet2!C5"]
      (by rfl) (by rfl) (by rfl) (by rfl) "Sheet2!C4"
  · exact extract_dependencies_spec.2.2 "Sheet1"

/-- C3: refuted — external-workbook and structured-table references do
not raise a recoverable error and are not dropped: `parse_reference`
returns them verbatim as (bogus) identifiers, which
`extract_dependencies` keeps in the dependency set, contrary to the
spec (and to the comment on the except-clause in the code). Only
malformed range syntax (e.g. `"A1:B"`) raises `ValueError` and is
dropped while extraction continues. -/
theorem parse_reference_unparseable_spec :
    parse_reference "[Book1.xlsx]Sheet1!A1" "Sheet1" =
      Except.ok ["[Book1.xlsx]Sheet1!A1"] ∧
    parse_reference "Table1[Amount]" "Sheet1" =
      Except.ok ["Sheet1!Table1[Amount]"] ∧
    extract_dependencies [⟨"Table1[Amount]", "OPERAND", "RANGE"⟩] "Sheet1" =
      Except.ok ["Sheet1!Table1[Amount]"] ∧
    parse_reference "A1:B" "Sheet1" = Except.error PyErr.valueError ∧
    extract_dependencies
      [⟨"A1:B", "OPERAND", "RANGE"⟩, ⟨"C2", "OPERAND", "RANGE"⟩] "Sheet1" =
      Except.ok ["Sheet1!C2"] :=
  ⟨rfl, rfl, rfl, rfl, rfl⟩

/-! ## Financial rules (`financial_rules.py`)

`FormulaRuleRegistry.identify_metrics` tokenizes the formula with the
external `openpyxl` tokenizer; as above, the token list is passed as an
argument. -/

/-- Default `function_mapping` of `FinancialFunctionPlugin`, in source
(dict-insertion) order. -/
def function_mapping : List (String × String) :=
  [("IRR", "Internal Rate of Return"),
   ("XIRR", "Extended Internal Rate of Return"),
   ("NPV", "Net Present Value"),
   ("XNPV", "Extended Net Present Value"),
   ("MIRR", "Modified Internal Rate of Return"),
   ("RATE", "Interest Rate"),
   ("PV", "Present Value"),
   ("FV", "Future Value"),
   ("PMT", "Payment Amount"),
   ("IPMT", "Interest Payment"),
   ("PPMT", "Principal Payment"),
   ("NPER", "Number of Periods"),
   ("DSCR", "Debt Service Coverage Ratio")]

/-- Default `keywords` of `KeywordPlugin`. -/
def keywords : List (String × String) :=
  [("DSCR", "Debt Service Coverage Ratio"),
   ("EBITDA", "Earnings Before Interest, Taxes, Depreciation, and Amortization")]

/-- Python `needle in hay` on character lists (contiguous substring). -/
def containsSubAux (needle : List Char) : List Char → Bool
  | [] => needle.isEmpty
  | c :: rest => needle.isPrefixOf (c :: rest) || containsSubAux needle rest

/-- Python `needle in hay` on strings. -/
def pyInStr (needle hay : String) : Bool :=
  containsSubAux needle.toList hay.toList

/-- Python `str.upper()` (per-character uppercasing). -/
def pyUpper (s : String) : String :=
  String.mk (s.toList.map Char.toUpper)

/-- The two plugin kinds of `financial_rules.py`, carrying their
configuration. -/
inductive FormulaPlugin where
  | financialFunction (mapping : List (String × String))
  | keyword (kws : List (String × String))
deriving DecidableEq, Repr

/-- `FinancialFunctionPlugin.identify` and `KeywordPlugin.identify`: the
former emits one metric per mapping entry whose function name occurs in
the retained token set, the latter one per keyword occurring as a
substring of the uppercased formula. -/
def FormulaPlugin.identify :
    FormulaPlugin → String → String → String → List String →
      List FinancialMetric
  | FormulaPlugin.financialFunction mapping, sheet, coordinate, formula,
      tokens =>
    mapping.filterMap (fun p =>
      if tokens.contains p.1 then
        Option.some ⟨sheet, coordinate, formula, p.1,
          [("description", p.2)]⟩
      else Option.none)
  | FormulaPlugin.keyword kws, sheet, coordinate, formula, _ =>
    kws.filterMap (fun p =>
      if pyInStr p.1 (pyUpper formula) then
        Option.some ⟨sheet, coordinate, formula, p.1,
          [("description", p.2), ("source", "keyword")]⟩
      else Option.none)

/-- `FormulaRuleRegistry` (the plugin list). -/
structure FormulaRuleRegistry where
  plugins : List FormulaPlugin
deriving DecidableEq, Repr

/-- `FormulaRuleRegistry.identify_metrics`, over the token list produced
by the external tokenizer for the formula: keep the text of tokens whose
type is `OPERAND` or `FUNCTION`, uppercased, then concatenate every
plugin's output on that retained token list. -/
def FormulaRuleRegistry.identify_metrics (reg : FormulaRuleRegistry)
    (sheet coordinate formula : String) (items : List Token) :
    List FinancialMetric :=
  let tokens := (items.filter (fun t =>
    t.ttype = "OPERAND" || t.ttype = "FUNCTION")).map (fun t =>
      pyUpper t.value)
  (reg.plugins.map (fun p =>
    FormulaPlugin.identify p sheet coordinate formula tokens)).flatten

/-- `default_registry()`: the function plugin then the keyword plugin,
each with its default configuration. -/
def default_registry : FormulaRuleRegistry :=
  ⟨[FormulaPlugin.financialFunction function_mapping,
    FormulaPlugin.keyword keywords]⟩

/-- C4: refuted — on the tokens the external tokenizer actually produces
for `"=IRR(B1:B10)"` (the function token has type `FUNC`, not
`FUNCTION`, and its value keeps the opening parenthesis, `"IRR("`), the
default registry returns no metric at all: the OPERAND-or-FUNCTION
filter retains only `B1:B10`, which matches no mapping entry, and no
keyword occurs in the formula. The function rule itself would emit
exactly the claimed metric were `IRR` among the retained tokens (second
conjunct). -/
theorem identify_metrics_irr_spec :
    default_registry.identify_metrics "Sheet1" "C1" "=IRR(B1:B10)"
      [⟨"IRR(", "FUNC", "OPEN"⟩, ⟨"B1:B10", "OPERAND", "RANGE"⟩,
        ⟨")", "FUNC", "CLOSE"⟩] = [] ∧
    FormulaPlugin.identify (FormulaPlugin.financialFunction function_mapping)
      "Sheet1" "C1" "=IRR(B1:B10)" ["IRR", "B1:B10"] =
      [⟨"Sheet1", "C1", "=IRR(B1:B10)", "IRR",
        [("description", "Internal Rate of Return")]⟩] :=
  ⟨rfl, rfl⟩

/-! ## `WorkbookParser.parse` cell loop (C10) -/

/-- Lines 162-165 of `WorkbookParser.parse`: the formula recorded for a
cell — `None` unless the cell's data type is `"f"` and the raw stored
text is truthy; an `"="` is prepended when the raw text lacks it. -/
def formula_of_cell (data_type : String) (raw : Option String) :
    Option String :=
  if data_type = "f" then
    match raw with
    | Option.none => Option.none
    | Option.some r =>
      if r = "" then Option.none
      else Option.some (if pyStartsWith r "=" then r else "=" ++ r)
  else Option.none

/-- Lines 162-178 of `WorkbookParser.parse`, for a single cell: `none`
when the cell is skipped (cached value `None` and no formula), otherwise
the stored `CellMetadata`; `tokenize` stands for the external tokenizer
feeding `extract_dependencies`. -/
def parse_cell (tokenize : String → List Token)
    (sheet_title coordinate data_type : String) (raw : Option String)
    (value : PyVal) : Except PyErr (Option CellMetadata) :=
  match formula_of_cell data_type raw with
  | Option.none =>
    if value = PyVal.none then Except.ok Option.none
    else Except.ok (Option.some
      ⟨sheet_title, coordinate, value, Option.none, [], true⟩)
  | Option.some f =>
    match extract_dependencies (tokenize f) sheet_title with
    | Except.error e => Except.error e
    | Except.ok deps =>
      Except.ok (Option.some
        ⟨sheet_title, coordinate, value, Option.some f, deps, false⟩)

/-- The cell loop of `WorkbookParser.parse` over one sheet: each raw
cell is `(coordinate, data_type, raw value, cached value)`; produced
records are stored in `sheet_meta.cells` under their coordinate. -/
def parse_sheet_cells (tokenize : String → List Token) (st : String) :
    List (String × String × Option String × PyVal) →
      List (String × CellMetadata) →
      Except PyErr (List (String × CellMetadata))
  | [], acc => Except.ok acc
  | (co, dt, raw, v) :: rest, acc =>
    match parse_cell tokenize st co dt raw v with
    | Except.error e => Except.error e
    | Except.ok Option.none => parse_sheet_cells tokenize st rest acc
    | Except.ok (Option.some m) =>
      parse_sheet_cells tokenize st rest (dictInsert acc co m)

theorem pyStartsWith_eq_append (r : String) :
    pyStartsWith ("=" ++ r) "=" = true := by
  show List.isPrefixOf "=".toList ("=" ++ r).toList = true
  have h : ("=" ++ r).toList = '=' :: r.toList := rfl
  rw [h]
  simp [List.isPrefixOf]

theorem formula_of_cell_prefix (dt : String) (raw : Option String)
    (g : String) (h : formula_of_cell dt raw = Option.some g) :
    pyStartsWith g "=" = true := by
  unfold formula_of_cell at h
  by_cases hdt : dt = "f"
  · rw [if_pos hdt] at h
    cases raw with
    | none => exact Option.noConfusion h
    | some r =>
      have h2 : (if r = "" then Option.none
          else Option.some (if pyStartsWith r "=" then r else "=" ++ r)) =
          Option.some g := h
      by_cases hr : r = ""
      · rw [if_pos hr] at h2
        exact Option.noConfusion h2
      · rw [if_neg hr] at h2
        have hg : (if pyStartsWith r "=" then r else "=" ++ r) = g :=
          Option.some.inj h2
        by_cases hs : pyStartsWith r "=" = true
        · rw [if_pos hs] at hg
          rw [← hg]
          exact hs
        · rw [if_neg hs] at hg
          rw [← hg]
          exact pyStartsWith_eq_append r
  · rw [if_neg hdt] at h
    exact Option.noConfusion h

theorem parse_cell_formula_prefix (tokenize : String → List Token)
    (st co dt : String) (raw : Option String) (v : PyVal)
    (m : CellMetadata) (f : String)
    (h : parse_cell tokenize st co dt raw v = Except.ok (Option.some m))
    (hf : m.formula = Option.some f) : pyStartsWith f "=" = true := by
  unfold parse_cell at h
  cases hfc : formula_of_cell dt raw with
  | none =>
    rw [hfc] at h
    have h' : (if v = PyVal.none then
          Except.ok (Option.none : Option CellMetadata)
        else Except.ok (Option.some
          (⟨st, co, v, Option.none, [], true⟩ : CellMetadata))) =
        Except.ok (Option.some m) := h
    by_cases hv : v = PyVal.none
    · rw [if_pos hv] at h'
      exact Option.noConfusion (Except.ok.inj h')
    · rw [if_neg hv] at h'
      have hm : (⟨st, co, v, Option.none, [], true⟩ : CellMetadata) = m :=
        Option.some.inj (Except.ok.inj h')
      rw [← hm] at hf
      exact Option.noConfusion hf
  | some g =>
    rw [hfc] at h
    have h' : (match extract_dependencies (tokenize g) st with
        | Except.error e => Except.error e
        | Except.ok deps => Except.ok (Option.some
            (⟨st, co, v, Option.some g, deps, false⟩ : CellMetadata))) =
        Except.ok (Option.some m) := h
    cases hed : extract_dependencies (tokenize g) st with
    | error e =>
      rw [hed] at h'
      exact Except.noConfusion h'
    | ok deps =>
      rw [hed] at h'
      have hm : (⟨st, co, v, Option.some g, deps, false⟩ : CellMetadata) = m :=
        Option.some.inj (Except.ok.inj h')
      rw [← hm] at hf
      have hgf : Option.some g = Option.some f := hf
      rw [← Option.some.inj hgf]
      exact formula_of_cell_prefix dt raw g hfc

theorem dictInsert_entry_mem {es : List (String × β)} {k : String} {v : β}
    {p : String × β} (h : p ∈ dictInsert es k v) : p = (k, v) ∨ p ∈ es := by
  unfold dictInsert at h
  by_cases hk : (es.map Prod.fst).contains k = true
  · rw [if_pos hk] at h
    rcases List.mem_map.mp h with ⟨q, hq, hval⟩
    by_cases hq1 : q.1 = k
    · rw [if_pos hq1] at hval
      left
      rw [← hval, hq1]
    · rw [if_neg hq1] at hval
      right
      rw [← hval]
      exact hq
  · rw [if_neg hk] at h
    rcases List.mem_append.mp h with h | h
    · exact Or.inr h
    · left
      simpa using h

theorem parse_sheet_cells_prefix_aux (tokenize : String → List Token)
    (st : String) :
    ∀ (cells : List (String × String × Option String × PyVal))
      (acc out : List (String × CellMetadata)),
      (∀ p ∈ acc, ∀ f, (p : String × CellMetadata).2.formula =
        Option.some f → pyStartsWith f "=" = true) →
      parse_sheet_cells tokenize st cells acc = Except.ok out →
      ∀ p ∈ out, ∀ f, (p : String × CellMetadata).2.formula =
        Option.some f → pyStartsWith f "=" = true := by
  intro cells
  induction cells with
  | nil =>
    intro acc out hacc h
    have h' : Except.ok acc = Except.ok out := h
    rw [← Except.ok.inj h']
    exact hacc
  | cons c rest ih =>
    rcases c with ⟨co, dt, raw, v⟩
    intro acc out hacc h
    rw [parse_sheet_cells] at h
    cases hpc : parse_cell tokenize st co dt raw v with
    | error e =>
      rw [hpc] at h
      exact Except.noConfusion h
    | ok om =>
      rw [hpc] at h
      cases om with
      | none => exact ih acc out hacc h
      | some m =>
        refine ih (dictInsert acc co m) out ?_ h
        intro p hp f hpf
        rcases dictInsert_entry_mem hp with hnew | hold
        · have hm : p.2 = m := by rw [hnew]
          rw [hm] at hpf
          exact parse_cell_formula_prefix tokenize st co dt raw v m f hpc hpf
        · exact hacc p hold f hpf

/-- C10: every cell record produced by the cell loop of
`WorkbookParser.parse` that carries a formula has `"="`-prefixed formula
text — the parser prepends `"="` to a raw stored formula that lacks it
before extracting dependencies and storing the record. -/
theorem workbook_parse_formula_prefix (tokenize : String → List Token)
    (st : String) (cells : List (String × String × Option String × PyVal))
    (out : List (String × CellMetadata))
    (h : parse_sheet_cells tokenize st cells [] = Except.ok out) :
    ∀ p ∈ out, ∀ f, (p : String × CellMetadata).2.formula =
      Option.some f → pyStartsWith f "=" = true := by
  refine parse_sheet_cells_prefix_aux tokenize st cells [] out ?_ h
  intro p hp
  exact absurd hp (List.not_mem_nil p)

theorem workbook_parse_formula_prefix_witness :
    pyStartsWith "=1+1" "=" = true :=
  workbook_parse_formula_prefix (fun _ => []) "Sheet1"
    [("A1", "f", Option.some "1+1", PyVal.none)]
    [("A1", ⟨"Sheet1", "A1", PyVal.none, Option.some "=1+1", [], false⟩)]
    (by rfl)
    ("A1", ⟨"Sheet1", "A1", PyVal.none, Option.some "=1+1", [], false⟩)
    (List.mem_singleton_self _) "=1+1" (by rfl)

/-! ## Structured-range detection (`detect_structured_ranges`, C8)

The worksheet's cached values are passed as a grid `List (List PyVal)`
(one inner list per row, as produced by `list(value_sheet.values)`); the
sheet's merged ranges as their string forms
(`str(merged_range)`). -/

/-- `cell not in (None, "")`, negated. -/
def cell_empty (v : PyVal) : Bool :=
  v == PyVal.none || v == PyVal.str ""

/-- `isinstance(cell, str)`. -/
def is_str : PyVal → Bool
  | PyVal.str _ => true
  | _ => false

/-- `isinstance(cell, Number) or isinstance(cell, (date, datetime))`. -/
def is_data : PyVal → Bool
  | PyVal.num _ => true
  | PyVal.date => true
  | _ => false

/-- `num_cols = max((len(row) for row in values), default=0)`. -/
def num_cols (grid : List (List PyVal)) : Nat :=
  (grid.map List.length).foldr Nat.max 0

/-- The inner `row_values` helper: the row at `idx` padded with `None`
to `num_cols`, or `[]` out of range. -/
def row_values (grid : List (List PyVal)) (idx : Nat) : List PyVal :=
  if idx < grid.length then
    grid.getD idx [] ++
      List.replicate (num_cols grid - (grid.getD idx []).length) PyVal.none
  else []

/-- The `end_col` trimming loop (lines 119-121): walk left from the last
column while the header cell there is empty and the column is still
right of `start_col`. -/
def trim_end_col (current_row : List PyVal) (sc : Nat) : Nat → Nat
  | 0 => 0
  | e + 1 =>
    if sc < e + 1 ∧ cell_empty (current_row.getD (e + 1) PyVal.none) = true
    then trim_end_col current_row sc e
    else e + 1

/-- Line 126: the current row is entirely empty within the column
bounds `start_col..end_col`. -/
def row_empty_between (grid : List (List PyVal)) (sc ec r : Nat) : Bool :=
  (List.range' sc (ec + 1 - sc)).all (fun c =>
    cell_empty ((row_values grid r).getD c PyVal.none))

/-- The row-extension loop (lines 122-129), with structural fuel (the
caller passes `grid.length`, always enough): returns the final
`(end_row, last_data_row)`. -/
def scan_rows (grid : List (List PyVal)) (sc ec : Nat) :
    Nat → Nat → Nat → Nat × Nat
  | 0, end_row, ldr => (end_row, ldr)
  | fuel + 1, end_row, ldr =>
    if end_row < grid.length then
      if row_empty_between grid sc ec end_row then (end_row, ldr)
      else scan_rows grid sc ec fuel (end_row + 1) end_row
    else (end_row, ldr)

/-- The merged-range loop of `range_has_merged_cells` over the bounding
box `(a, b, c, d) = (min_col, min_row, max_col, max_row)`. Missing
bounds in a merged range would make Python's `<` comparisons raise
`TypeError`. -/
def range_has_merged_aux (a b c d : Nat) : List String → Except PyErr Bool
  | [] => Except.ok false
  | mr :: rest =>
    match range_boundaries mr with
    | Except.error e => Except.error e
    | Except.ok (Option.some m1, Option.some m2, Option.some m3,
        Option.some m4) =>
      if ¬(m3 < a ∨ c < m1 ∨ m4 < b ∨ d < m2) then Except.ok true
      else range_has_merged_aux a b c d rest
    | Except.ok _ => Except.error PyErr.typeError

/-- `range_has_merged_cells` from `parser.py`: whether any merged range
overlaps the bounding box of `ref`. As in the source, `ref` itself is
parsed first; missing bounds raise `TypeError` in the comparisons. -/
def range_has_merged_cells (merged : List String) (ref : String) :
    Except PyErr Bool :=
  match range_boundaries ref with
  | Except.error e => Except.error e
  | Except.ok (Option.some a, Option.some b, Option.some c,
      Option.some d) => range_has_merged_aux a b c d merged
  | Except.ok _ => Except.error PyErr.typeError

/-- A pandas `DataFrame` as built by `dataframe_from_range`: the header
row as column labels and the remaining rows as payload. -/
structure PyDataFrame where
  columns : List PyVal
  rows : List (List PyVal)
deriving DecidableEq, Repr

/-- `dataframe_from_range` from `parser.py`, over the cached grid: read
the rectangle of `ref` (`None` outside the stored cells), then split
header and payload. Only bounded references reach this function from
the callers modeled here; missing bounds are mapped to the error case. -/
def dataframe_from_range (grid : List (List PyVal)) (ref : String) :
    Except PyErr PyDataFrame :=
  match range_boundaries ref with
  | Except.error e => Except.error e
  | Except.ok (Option.some mc, Option.some mr, Option.some xc,
      Option.some xr) =>
    match (List.range' mr (xr + 1 - mr)).map (fun r =>
      (List.range' mc (xc + 1 - mc)).map (fun c =>
        (row_values grid (r - 1)).getD (c - 1) PyVal.none)) with
    | [] => Except.ok ⟨[], []⟩
    | header :: rest => Except.ok ⟨header, rest⟩
  | Except.ok _ => Except.error PyErr.typeError

/-- `TableMetadata` from `models.py` (the DataFrame kept as
`PyDataFrame`). -/
structure TableMetadata where
  sheet : String
  name : Option String
  ref : String
  dataframe : PyDataFrame
  has_merged_cells : Bool
deriving DecidableEq, Repr

/-- Line 111: the current row is a header candidate (at least two
non-empty cells, all of them strings). -/
def header_row (grid : List (List PyVal)) (row : Nat) : Bool :=
  decide (2 ≤ ((row_values grid row).filter
    (fun c => !(cell_empty c))).length) &&
  ((row_values grid row).filter (fun c => !(cell_empty c))).all is_str

/-- Lines 112-117: the row below holds a numeric or date value among
its non-empty cells. -/
def data_next (grid : List (List PyVal)) (row : Nat) : Bool :=
  ((row_values grid (row + 1)).filter (fun c => !(cell_empty c))).any
    is_data

/-- Line 118: index of the first non-empty header cell. -/
def block_start_col (grid : List (List PyVal)) (row : Nat) : Nat :=
  (row_values grid row).findIdx (fun c => !(cell_empty c))

/-- Lines 119-121: the trimmed last header column. -/
def block_end_col (grid : List (List PyVal)) (row : Nat) : Nat :=
  trim_end_col (row_values grid row) (block_start_col grid row)
    ((row_values grid row).length - 1)

/-- Lines 122-129: the `(end_row, last_data_row)` pair for the block
headed at `row`. -/
def block_scan (grid : List (List PyVal)) (row : Nat) : Nat × Nat :=
  scan_rows grid (block_start_col grid row) (block_end_col grid row)
    grid.length (row + 1) (row + 1)

/-- Line 130: the A1-style reference of the detected block. -/
def block_ref (grid : List (List PyVal)) (row : Nat) : String :=
  get_column_letter (block_start_col grid row + 1) ++ toString (row + 1)
    ++ ":" ++ get_column_letter (block_end_col grid row + 1) ++
    toString ((block_scan grid row).2 + 1)

/-- Lines 118-143 for one detected header block: the optional emitted
table (`none` when the rectangle overlaps a merged range) and the row
at which scanning resumes (`end_row`). -/
def detect_block (sheet_title : String) (merged : List String)
    (grid : List (List PyVal)) (row : Nat) :
    Except PyErr (Option TableMetadata × Nat) :=
  match range_has_merged_cells merged (block_ref grid row) with
  | Except.error e => Except.error e
  | Except.ok true => Except.ok (Option.none, (block_scan grid row).1)
  | Except.ok false =>
    match dataframe_from_range grid (block_ref grid row) with
    | Except.error e => Except.error e
    | Except.ok df =>
      Except.ok (Option.some
        ⟨sheet_title, Option.none, block_ref grid row, df, false⟩,
        (block_scan grid row).1)

/-- The outer `while row < num_rows` loop of `detect_structured_ranges`
(lines 107-144), with structural fuel (`grid.length` always suffices
since `row` strictly increases). -/
def detect_loop (sheet_title : String) (merged : List String)
    (grid : List (List PyVal)) : Nat → Nat → Except PyErr (List TableMetadata)
  | 0, _ => Except.ok []
  | fuel + 1, row =>
    if row < grid.length then
      if header_row grid row && data_next grid row then
        match detect_block sheet_title merged grid row with
        | Except.error e => Except.error e
        | Except.ok (Option.none, resume) =>
          detect_loop sheet_title merged grid fuel resume
        | Except.ok (Option.some t, resume) =>
          match detect_loop sheet_title merged grid fuel resume with
          | Except.error e => Except.error e
          | Except.ok rest => Except.ok (t :: rest)
      else detect_loop sheet_title merged grid fuel (row + 1)
    else Except.ok []

/-- `detect_structured_ranges` from `parser.py`. -/
def detect_structured_ranges (sheet_title : String) (merged : List String)
    (grid : List (List PyVal)) : Except PyErr (List TableMetadata) :=
  detect_loop sheet_title merged grid grid.length 0

theorem scan_rows_spec (grid : List (List PyVal)) (sc ec : Nat) :
    ∀ (fuel e ldr : Nat), grid.length ≤ e + fuel →
      ∃ E, scan_rows grid sc ec fuel e ldr =
          (E, if E = e then ldr else E - 1) ∧
        e ≤ E ∧
        (∀ r, e ≤ r → r < E →
          r < grid.length ∧ row_empty_between grid sc ec r = false) ∧
        (grid.length ≤ E ∨
          (E < grid.length ∧ row_empty_between grid sc ec E = true)) := by
  intro fuel
  induction fuel with
  | zero =>
    intro e ldr hf
    refine ⟨e, ?_, le_refl e, ?_, Or.inl (by omega)⟩
    · rw [if_pos rfl]
      rfl
    · intro r h1 h2
      omega
  | succ n ih =>
    intro e ldr hf
    by_cases he : e < grid.length
    · by_cases hemp : row_empty_between grid sc ec e = true
      · refine ⟨e, ?_, le_refl e, ?_, Or.inr ⟨he, hemp⟩⟩
        · rw [if_pos rfl]
          conv_lhs => rw [scan_rows]
          rw [if_pos he, if_pos hemp]
        · intro r h1 h2
          omega
      · obtain ⟨E, hE, hle, hmid, hend⟩ := ih (e + 1) e (by omega)
        refine ⟨E, ?_, by omega, ?_, hend⟩
        · conv_lhs => rw [scan_rows]
          rw [if_pos he, if_neg hemp, hE]
          have h1 : (if E = e + 1 then e else E - 1) = E - 1 := by
            by_cases h : E = e + 1
            · subst h
              rw [if_pos rfl]
              omega
            · rw [if_neg h]
          have h2 : (if E = e then ldr else E - 1) = E - 1 :=
            if_neg (by omega)
          rw [h1, h2]
        · intro r h1 h2
          by_cases hr : r = e
          · subst hr
            exact ⟨he, by simpa using hemp⟩
          · exact hmid r (by omega) h2
    · refine ⟨e, ?_, le_refl e, ?_, Or.inl (by omega)⟩
      · rw [if_pos rfl]
        conv_lhs => rw [scan_rows]
        rw [if_neg he]
      · intro r h1 h2
        omega

theorem detect_loop_head_step (sheet : String) (merged : List String)
    (grid : List (List PyVal)) (n row : Nat) (hrow : row < grid.length)
    (hh : header_row grid row = true) (hd : data_next grid row = true)
    (t : TableMetadata) (resume : Nat)
    (hb : detect_block sheet merged grid row =
      Except.ok (Option.some t, resume)) :
    detect_loop sheet merged grid (n + 1) row =
      (match detect_loop sheet merged grid n resume with
      | Except.error e => Except.error e
      | Except.ok rest => Except.ok (t :: rest)) := by
  conv_lhs => rw [detect_loop]
  rw [if_pos hrow]
  have hcond : (header_row grid row && data_next grid row) = true := by
    rw [hh, hd]
    rfl
  rw [if_pos hcond, hb]

/-- C8 (amended): for a grid whose first row is a header (at least two
non-empty cells, all strings) with numeric/date data among the non-empty
cells of the row below, and whose block rectangle does not overlap a
merged range, `detect_structured_ranges` emits that block first,
spanning the trimmed header columns from the header row down to
`last_data_row` — which is the last row that is non-empty within the
column bounds when the scan extends at all, but stays at the *first data
row* (row 2) when even that row is empty within the bounds; the block
then ends at the first row entirely empty within the bounds (or the
grid's end). The second conjunct shows the merged-overlap behaviour: the
first block (`A1:B2`, overlapping the merged range) is skipped, and
scanning resumes past it to emit the later block `A4:B5`. -/
theorem detect_structured_ranges_spec :
    (∀ (sheet : String) (merged : List String) (grid : List (List PyVal))
        (E ldr : Nat) (out : List TableMetadata),
      0 < grid.length →
      header_row grid 0 = true →
      data_next grid 0 = true →
      block_scan grid 0 = (E, ldr) →
      range_has_merged_cells merged (block_ref grid 0) = Except.ok false →
      detect_structured_ranges sheet merged grid = Except.ok out →
      (∃ df rest, out =
        ⟨sheet, Option.none, block_ref grid 0, df, false⟩ :: rest) ∧
      block_ref grid 0 =
        get_column_letter (block_start_col grid 0 + 1) ++ toString 1 ++
          ":" ++ get_column_letter (block_end_col grid 0 + 1) ++
          toString (ldr + 1) ∧
      ((E = 1 ∧ ldr = 1) ∨ (2 ≤ E ∧ ldr = E - 1)) ∧
      (∀ r, 1 ≤ r → r < E → r < grid.length ∧
        row_empty_between grid (block_start_col grid 0)
          (block_end_col grid 0) r = false) ∧
      (grid.length ≤ E ∨ (E < grid.length ∧
        row_empty_between grid (block_start_col grid 0)
          (block_end_col grid 0) E = true))) ∧
    detect_structured_ranges "Sheet1" ["A1:B2"]
        [[PyVal.str "Year", PyVal.str "Revenue"],
         [PyVal.num 2023, PyVal.num 100],
         [],
         [PyVal.str "Albany", PyVal.str "Buffalo"],
         [PyVal.num 3, PyVal.num 4]] =
      Except.ok [⟨"Sheet1", Option.none, "A4:B5",
        ⟨[PyVal.str "Albany", PyVal.str "Buffalo"],
         [[PyVal.num 3, PyVal.num 4]]⟩, false⟩] := by
  constructor
  · intro sheet merged grid E ldr out h0 hh hd hscan hm hout
    obtain ⟨E', hE', hle, hmid, hend⟩ := scan_rows_spec grid
      (block_start_col grid 0) (block_end_col grid 0) grid.length 1 1
      (by omega)
    have hbs : block_scan grid 0 =
        (E', if E' = 1 then 1 else E' - 1) := hE'
    have heq : (E, ldr) = (E', if E' = 1 then 1 else E' - 1) :=
      hscan.symm.trans hbs
    have hEE : E = E' := congrArg Prod.fst heq
    subst hEE
    have hldr : ldr = if E = 1 then 1 else E - 1 := congrArg Prod.snd heq
    refine ⟨?_, ?_, ?_, hmid, hend⟩
    · unfold detect_structured_ranges at hout
      obtain ⟨n, hn⟩ : ∃ n, grid.length = n + 1 :=
        ⟨grid.length - 1, by omega⟩
      rw [hn] at hout
      cases hdf : dataframe_from_range grid (block_ref grid 0) with
      | error e =>
        have hb : detect_block sheet merged grid 0 = Except.error e := by
          unfold detect_block
          rw [hm, hdf]
        have hstep : detect_loop sheet merged grid (n + 1) 0 =
            Except.error e := by
          conv_lhs => rw [detect_loop]
          rw [if_pos h0]
          have hcond : (header_row grid 0 && data_next grid 0) = true := by
            rw [hh, hd]
            rfl
          rw [if_pos hcond, hb]
        rw [hstep] at hout
        exact Except.noConfusion hout
      | ok df =>
        have hb : detect_block sheet merged grid 0 = Except.ok
            (Option.some ⟨sheet, Option.none, block_ref grid 0, df, false⟩,
              (block_scan grid 0).1) := by
          unfold detect_block
          rw [hm, hdf]
        have hstep := detect_loop_head_step sheet merged grid n 0 h0 hh hd
          _ _ hb
        rw [hstep] at hout
        cases hrest : detect_loop sheet merged grid n
            ((block_scan grid 0).1) with
        | error e =>
          rw [hrest] at hout
          exact Except.noConfusion hout
        | ok rest =>
          rw [hrest] at hout
          have hout2 : Except.ok
              (⟨sheet, Option.none, block_ref grid 0, df, false⟩ :: rest) =
              Except.ok out := hout
          exact ⟨df, rest, (Except.ok.inj hout2).symm⟩
    · unfold block_ref
      rw [hscan]
    · by_cases h1 : E = 1
      · exact Or.inl ⟨h1, by rw [hldr, if_pos h1]⟩
      · exact Or.inr ⟨by omega, by rw [hldr, if_neg h1]⟩
  · rfl

/-- C8, counterexample to the original row-bound clause: row 1 is the
header `["Year", "Revenue"]` (columns A-B) and row 2 is entirely empty
within those columns (its only value, 2023, sits in column C), so a
block ending "at the last non-empty row before the first empty-in-bounds
row" would be `A1:B1`; the code's `last_data_row` starts at the first
data row and the emitted table is `A1:B2`. -/
theorem detect_structured_ranges_counterexample :
    detect_structured_ranges "Sheet1" []
        [[PyVal.str "Year", PyVal.str "Revenue"],
         [PyVal.none, PyVal.none, PyVal.num 2023]] =
      Except.ok [⟨"Sheet1", Option.none, "A1:B2",
        ⟨[PyVal.str "Year", PyVal.str "Revenue"],
         [[PyVal.none, PyVal.none]]⟩, false⟩] :=
  rfl

/-- The two-row grid of the row-bound corner case (row 2's only value
sits outside the header columns). -/
def gridC8 : List (List PyVal) :=
  [[PyVal.str "Year", PyVal.str "Revenue"],
   [PyVal.none, PyVal.none, PyVal.num 2023]]

theorem detect_structured_ranges_spec_witness :
    (∃ df rest,
      [(⟨"Sheet1", Option.none, "A1:B2",
        ⟨[PyVal.str "Year", PyVal.str "Revenue"],
         [[PyVal.none, PyVal.none]]⟩, false⟩ : TableMetadata)] =
        ⟨"Sheet1", Option.none, block_ref gridC8 0, df, false⟩ :: rest) ∧
    block_ref gridC8 0 =
      get_column_letter (block_start_col gridC8 0 + 1) ++ toString 1 ++
        ":" ++ get_column_letter (block_end_col gridC8 0 + 1) ++
        toString (1 + 1) ∧
    (((1 : Nat) = 1 ∧ (1 : Nat) = 1) ∨
      (2 ≤ (1 : Nat) ∧ (1 : Nat) = 1 - 1)) ∧
    (∀ r, 1 ≤ r → r < 1 → r < gridC8.length ∧
      row_empty_between gridC8 (block_start_col gridC8 0)
        (block_end_col gridC8 0) r = false) ∧
    (gridC8.length ≤ 1 ∨ (1 < gridC8.length ∧
      row_empty_between gridC8 (block_start_col gridC8 0)
        (block_end_col gridC8 0) 1 = true)) :=
  detect_structured_ranges_spec.1 "Sheet1" [] gridC8 1 1
    [⟨"Sheet1", Option.none, "A1:B2",
      ⟨[PyVal.str "Year", PyVal.str "Revenue"],
       [[PyVal.none, PyVal.none]]⟩, false⟩]
    (by decide) (by rfl) (by rfl) (by rfl) (by rfl) (by rfl)
